import Mathlib

/-!
Verification of the RethinkDB contract-coordinator specification and the
`backfill_atom_seq_t` container (`src/src/corefwd.hpp`).

Keys are modelled as natural numbers (the store keys in the repository are
byte strings ordered lexicographically; the scenarios only need a linear
order with a least element, which `Nat` provides).  A
`key_range_t::right_bound_t` is either a key or the distinguished
"unbounded" value that compares above every key.
-/

namespace RethinkDB

abbrev Server := Nat
abbrev BranchId := Nat
abbrev ContractId := Nat
abbrev Key := Nat

/-- A `key_range_t::right_bound_t`: a key, or unbounded (past every key). -/
inductive RB where
  | key (k : Key)
  | unbounded
deriving DecidableEq, Repr

/-- Comparison of right bounds (`operator<=` on `right_bound_t`):
the unbounded bound is the greatest element. -/
def RB.le : RB → RB → Bool
  | _, .unbounded => true
  | .unbounded, .key _ => false
  | .key a, .key b => a ≤ b

/-- Strict comparison of right bounds (`operator<` on `right_bound_t`). -/
def RB.lt : RB → RB → Bool
  | .unbounded, _ => false
  | .key _, .unbounded => true
  | .key a, .key b => a < b

/-- The key stored in a right bound (`right_bound_t::key`); reading it on an
unbounded bound yields an unspecified value, modelled as `0`. -/
def RB.keyD : RB → Key
  | .key k => k
  | .unbounded => 0

theorem RB.le_iff_not_lt (a b : RB) : RB.le a b = !RB.lt b a := by
  cases a <;> cases b <;> simp [RB.le, RB.lt, ← decide_not, Nat.not_lt]

/-- A `key_range_t`: the half-open interval `[left, right)`. -/
structure KeyRange where
  left : Key
  right : RB
deriving DecidableEq, Repr

/-- A `region_t`: a hash interval together with a key range. -/
structure Region where
  beg_hash : Nat
  end_hash : Nat
  inner : KeyRange
deriving DecidableEq, Repr

/-- `region_t::empty()`: zero hash interval and the empty key range
(`left = min key`, `right` the bound at the min key). -/
def Region.emptyR : Region := ⟨0, 0, ⟨0, RB.key 0⟩⟩

/-!
## `backfill_atom_seq_t` (src/src/corefwd.hpp, lines 692-832)

The container is templated over the atom type; the atom interface
(`get_range()`, `get_mem_size()`, `mask_in_place()`) is passed explicitly.
`guarantee` failures in the C++ are modelled by returning `none`.
-/

/-- The interface the `atom_t` template parameter must provide. -/
structure AtomFns (α : Type) where
  get_range : α → KeyRange
  get_mem_size : α → Nat
  mask_in_place : α → KeyRange → α

structure BackfillAtomSeq (α : Type) where
  beg_hash : Nat
  end_hash : Nat
  left_key : RB
  right_key : RB
  mem_size : Nat
  atoms : List α
deriving DecidableEq, Repr

namespace BackfillAtomSeq

/-- The bounded constructor: an empty seq with a zero-width region at `key`. -/
def mkSeq (α : Type) (bh eh : Nat) (key : RB) : BackfillAtomSeq α :=
  ⟨bh, eh, key, key, 0, []⟩

/-- `backfill_atom_seq_t::get_region`. -/
def get_region (s : BackfillAtomSeq α) : Region :=
  if s.left_key = s.right_key then Region.emptyR
  else ⟨s.beg_hash, s.end_hash, ⟨s.left_key.keyD, s.right_key⟩⟩

/-- `backfill_atom_seq_t::first_before_threshold`.  `none` models returning
`false`; `some fo` models returning `true` with `*first_out = fo`
(`fo = none` models the null pointer). -/
def first_before_threshold (F : AtomFns α) (s : BackfillAtomSeq α)
    (threshold : RB) : Option (Option α) :=
  match s.atoms with
  | [] => if RB.lt s.right_key threshold then none else some none
  | a :: _ =>
      if RB.le threshold (RB.key (F.get_range a).left) then some none
      else some (some a)

/-- `backfill_atom_seq_t::pop_front` (calling it on an empty seq is a
contract violation, modelled as `none`). -/
def pop_front (F : AtomFns α) (s : BackfillAtomSeq α) :
    Option (BackfillAtomSeq α) :=
  match s.atoms with
  | [] => none
  | a :: rest =>
      some { s with
        left_key := (F.get_range a).right,
        mem_size := s.mem_size - F.get_mem_size a,
        atoms := rest }

/-- `backfill_atom_seq_t::pop_front_into`: transfer the leftmost atom of
`s` to the right end of `other`. -/
def pop_front_into (F : AtomFns α) (s other : BackfillAtomSeq α) :
    Option (BackfillAtomSeq α × BackfillAtomSeq α) :=
  if s.beg_hash = other.beg_hash ∧ s.end_hash = other.end_hash then
    if s.left_key = other.right_key then
      match s.atoms with
      | [] => none
      | a :: rest =>
          let atomSize := F.get_mem_size a
          let newLeft := (F.get_range a).right
          some ({ s with
                    left_key := newLeft,
                    mem_size := s.mem_size - atomSize,
                    atoms := rest },
                { other with
                    right_key := newLeft,
                    mem_size := other.mem_size + atomSize,
                    atoms := other.atoms ++ [a] })
    else none
  else none

/-- The loop body of `delete_to_key`, structurally recursive on the atom
list; returns the remaining atoms and the updated `mem_size`. -/
def delete_loop (F : AtomFns α) (cut : RB) :
    List α → Nat → List α × Nat
  | [], m => ([], m)
  | a :: rest, m =>
      let range := F.get_range a
      if RB.le range.right cut then
        delete_loop F cut rest (m - F.get_mem_size a)
      else if RB.le cut (RB.key range.left) then
        (a :: rest, m)
      else
        let a2 := F.mask_in_place a ⟨cut.keyD, range.right⟩
        (a2 :: rest, m - F.get_mem_size a + F.get_mem_size a2)

/-- `backfill_atom_seq_t::delete_to_key`. -/
def delete_to_key (F : AtomFns α) (s : BackfillAtomSeq α) (cut : RB) :
    Option (BackfillAtomSeq α) :=
  if RB.le s.left_key cut ∧ RB.le cut s.right_key then
    let r := delete_loop F cut s.atoms s.mem_size
    some { s with atoms := r.1, mem_size := r.2, left_key := cut }
  else none

/-- `backfill_atom_seq_t::push_back`. -/
def push_back (F : AtomFns α) (s : BackfillAtomSeq α) (atom : α) :
    Option (BackfillAtomSeq α) :=
  let range := F.get_range atom
  if RB.le s.right_key (RB.key range.left) then
    some { s with
      right_key := range.right,
      mem_size := s.mem_size + F.get_mem_size atom,
      atoms := s.atoms ++ [atom] }
  else none

/-- `backfill_atom_seq_t::push_back_nothing`. -/
def push_back_nothing (s : BackfillAtomSeq α) (bound : RB) :
    Option (BackfillAtomSeq α) :=
  if RB.le s.right_key bound then
    some { s with right_key := bound }
  else none

/-- `backfill_atom_seq_t::concat`. -/
def concat (s other : BackfillAtomSeq α) :
    Option (BackfillAtomSeq α) :=
  if s.beg_hash = other.beg_hash ∧ s.end_hash = other.end_hash then
    if s.right_key = other.left_key then
      some { s with
        right_key := other.right_key,
        mem_size := s.mem_size + other.mem_size,
        atoms := s.atoms ++ other.atoms }
    else none
  else none

/-- The `mem_size` bookkeeping invariant: the cached size equals the sum
of `get_mem_size` over the atoms. -/
def seq_wf (F : AtomFns α) (s : BackfillAtomSeq α) : Prop :=
  s.mem_size = (s.atoms.map F.get_mem_size).sum

/-- A concrete atom type for witnesses: a key range with a payload size;
masking replaces the range and keeps the size. -/
def demoFns : AtomFns (KeyRange × Nat) :=
  ⟨Prod.fst, Prod.snd, fun a r => (r, a.2)⟩

/-- A concrete two-atom sequence over keys `[0, 4)`. -/
def demoSeq : BackfillAtomSeq (KeyRange × Nat) :=
  ⟨7, 9, RB.key 0, RB.key 4, 5,
    [(⟨0, RB.key 2⟩, 2), (⟨2, RB.key 4⟩, 3)]⟩

end BackfillAtomSeq

/-!
## Contract coordinator (spec-modelled)

The coordinator itself (`calculate_all_contracts` in
`clustering/table_contract/coordinator.cc`) is not part of this
repository snapshot: `src/src/corefwd.hpp` only declares it and
unit-tests it through `coordinator_tester_t`.  The definitions below are
therefore modelled from the specification (its data model, the
per-contract transition of section 4.2, the top-level transition of
section 4.4), mirroring the concrete scenarios of section 8 where the
prose leaves slack — as the spec itself instructs.  The model covers a
single configuration shard spanning the whole key-space and a single CPU
subspace: every scenario behind the claims has exactly that shape, and
the per-subspace logic is identical across subspaces.
-/
namespace Coordinator

/-- Modelled from the spec: the optional primary of a contract,
`{server, hand_over?}`. -/
structure Primary where
  server : Server
  hand_over : Option Server
deriving DecidableEq, Repr

/-- Modelled from the spec: a contract — replicas, voters, optional
`temp_voters`, optional primary, current branch.  The C++ `std::set`s
are modelled as canonical (sorted, duplicate-free) lists, so that list
equality is exactly the set's bitwise equality. -/
structure Contract where
  replicas : List Server
  voters : List Server
  temp_voters : Option (List Server)
  primary : Option Primary
  branch : BranchId
deriving DecidableEq

/-- Modelled from the spec: the configuration for the single shard; all
configured replicas are the target voter set. -/
structure Config where
  replicas : List Server
  primary : Server
deriving DecidableEq

/-- Modelled from the spec: a contract ack.  A `secondary_need_primary`
ack carries a piecewise version map — the timestamp the secondary holds,
on the outgoing contract's branch, for each piece of the key-space — and
the failover-timeout flag. -/
inductive AckState where
  | nothing
  | secondary_backfilling
  | secondary_streaming
  | secondary_need_primary (version : List (KeyRange × Nat))
      (failover_timeout_elapsed : Bool)
  | primary_need_branch (branch : BranchId)
  | primary_ready
deriving DecidableEq

/-- An ack evaluated at a single key: `secondary_need_primary` reduced to
the timestamp its version map reports for the piece containing that key. -/
inductive AckAt where
  | nothing
  | secondary_backfilling
  | secondary_streaming
  | secondary_need_primary (timestamp : Nat) (failover_timeout_elapsed : Bool)
  | primary_need_branch (branch : BranchId)
  | primary_ready
deriving DecidableEq

/-- The timestamp a piecewise version map reports for the piece
containing `k` (`0` if no piece covers `k`). -/
def vmLookup (vm : List (KeyRange × Nat)) (k : Key) : Nat :=
  match vm.find? (fun p => p.1.left ≤ k && RB.lt (RB.key k) p.1.right) with
  | some p => p.2
  | none => 0

def ackAtKey (a : AckState) (k : Key) : AckAt :=
  match a with
  | .nothing => .nothing
  | .secondary_backfilling => .secondary_backfilling
  | .secondary_streaming => .secondary_streaming
  | .secondary_need_primary vm e => .secondary_need_primary (vmLookup vm k) e
  | .primary_need_branch b => .primary_need_branch b
  | .primary_ready => .primary_ready

/-- The acks map, keyed by `(server, contract_id)`. -/
abbrev Acks := List ((Server × ContractId) × AckState)

/-- The acks referring to one contract. -/
def acksFor : Acks → ContractId → List (Server × AckState)
  | [], _ => []
  | e :: rest, cid =>
      if e.1.2 = cid then (e.1.1, e.2) :: acksFor rest cid
      else acksFor rest cid

/-- One server's ack for the contract; an absent ack reads as `nothing`. -/
def ackOf (l : List (Server × AckState)) (s : Server) : AckState :=
  match l.find? (fun e => e.1 = s) with
  | some e => e.2
  | none => AckState.nothing

/-- The server of the contract's primary, if any. -/
def primaryOf (c : Contract) : Option Server := c.primary.map Primary.server

/-- Whether an ack shows a live primary (`primary_ready` or
`primary_need_branch`). -/
def primaryAlive : AckAt → Bool
  | .primary_ready => true
  | .primary_need_branch _ => true
  | _ => false

/-- Modelled from the spec (step C): a server counts as caught up when it
is streaming, or when it is the contract's primary and acks itself live. -/
def caughtUp (c : Contract) (ack : Server → AckAt) (s : Server) : Bool :=
  ack s = AckAt.secondary_streaming ||
    (primaryOf c = some s && primaryAlive (ack s))

def needTs : AckAt → Option (Nat × Bool)
  | .secondary_need_primary ts e => some (ts, e)
  | _ => none

def isNeed (a : AckAt) : Bool := (needTs a).isSome

def elapsedNeed (a : AckAt) : Bool :=
  match needTs a with
  | some (_, e) => e
  | none => false

def tsOf (ack : Server → AckAt) (s : Server) : Nat :=
  match needTs (ack s) with
  | some (ts, _) => ts
  | none => 0

/-- Modelled from the spec (step C, joint consensus, mirroring scenarios
AddReplica and RemoveReplica): commit a pending `temp_voters` once all of
its members are caught up; otherwise, when the config's voter set differs
from the contract's and all of its members are caught up, stage it as
`temp_voters` while keeping `voters` unchanged. -/
def nextVoters (cfg : Config) (c : Contract) (ack : Server → AckAt) :
    List Server × Option (List Server) :=
  match c.temp_voters with
  | some tv =>
      if ∀ s ∈ tv, caughtUp c ack s = true then (tv, none)
      else (c.voters, some tv)
  | none =>
      if cfg.replicas ≠ c.voters ∧ ∀ s ∈ cfg.replicas, caughtUp c ack s = true
      then (c.voters, some cfg.replicas)
      else (c.voters, none)

/-- Insert a key into an ascending list (insertion sort step). -/
def insertKey (k : Nat) : List Nat → List Nat
  | [] => [k]
  | x :: xs => if k ≤ x then k :: x :: xs else x :: insertKey k xs

/-- Ascending insertion sort. -/
def sortKeys : List Nat → List Nat
  | [] => []
  | x :: xs => insertKey x (sortKeys xs)

/-- Remove duplicates (keeping one occurrence of each element). -/
def dedupKeys : List Nat → List Nat
  | [] => []
  | x :: xs => if x ∈ xs then dedupKeys xs else x :: dedupKeys xs

/-- Set union on the canonical list representation of `std::set`. -/
def sunion (a b : List Server) : List Server :=
  sortKeys (dedupKeys (a ++ b))

/-- The candidate with the latest timestamp; on the ascending candidate
list ties go to the earliest entry, i.e. the smallest server id. -/
def pickBest (ack : Server → AckAt) : List Server → Option Server
  | [] => none
  | s :: rest =>
      match pickBest ack rest with
      | none => some s
      | some b => if tsOf ack b > tsOf ack s then some b else some s

/-- Servers appearing in an ack list, deduplicated and ascending. -/
def ackedServers (l : List (Server × AckState)) : List Server :=
  sortKeys (dedupKeys (l.map Prod.fst))

/-- Modelled from the spec (step B, mirroring scenarios ChangePrimary,
Failover and FailoverSplit): keep a live primary; drop a dead one once a
quorum of voters report `secondary_need_primary` with the failover
timeout elapsed; stage a hand-over when the config names a different,
streaming replica as primary; complete a hand-over once the old primary
is ready and the target streams; with no primary, elect once a quorum of
voters report `secondary_need_primary`, preferring the config's primary
and otherwise the latest reporter (ties to the smallest server id).
`l` is the ack list for the contract and `k` the piece's key, so the
candidate ordering is deterministic. -/
def nextPrimary (cfg : Config) (c : Contract)
    (l : List (Server × AckState)) (k : Key) : Option Primary :=
  let ack := fun s => ackAtKey (ackOf l s) k
  match c.primary with
  | none =>
      let cands := (ackedServers l).filter
        (fun s => c.voters.contains s && isNeed (ack s))
      if 2 * cands.length > c.voters.length then
        if cfg.primary ∈ cands then some ⟨cfg.primary, none⟩
        else
          match pickBest ack cands with
          | some b => some ⟨b, none⟩
          | none => none
      else none
  | some ⟨p, none⟩ =>
      if primaryAlive (ack p) = false ∧
          2 * ((ackedServers l).filter
              (fun s => c.voters.contains s && elapsedNeed (ack s))).length >
            c.voters.length then
        none
      else if cfg.primary ≠ p ∧ ack cfg.primary = AckAt.secondary_streaming
      then some ⟨p, some cfg.primary⟩
      else some ⟨p, none⟩
  | some ⟨p, some q⟩ =>
      if ack p = AckAt.primary_ready ∧ ack q = AckAt.secondary_streaming
      then none
      else some ⟨p, some q⟩

/-- Modelled from the spec (step D): adopt the branch proposed by the
chosen primary's `primary_need_branch` ack, else keep the old branch. -/
def nextBranch (c : Contract) (ack : Server → AckAt) (pr : Option Primary) :
    BranchId :=
  match pr with
  | some p =>
      match ack p.server with
      | .primary_need_branch b => b
      | _ => c.branch
  | none => c.branch

/-- The servers named by an optional primary (server and hand-over
target). -/
def primaryServers : Option Primary → List Server
  | none => []
  | some ⟨p, none⟩ => [p]
  | some ⟨p, some q⟩ => [p, q]

/-- Modelled from the spec (steps A-D): the next contract for one piece
of a region, from the acks evaluated at that piece.  Step A keeps exactly
the servers still needed — config replicas, voters, temp voters and the
primary (mirroring the RemoveReplica scenario, where a still-streaming
replica is dropped once it leaves the committed voter set). -/
def calcContract (cfg : Config) (c : Contract)
    (l : List (Server × AckState)) (k : Key) : Contract :=
  let ack := fun s => ackAtKey (ackOf l s) k
  let v := nextVoters cfg c ack
  let pr := nextPrimary cfg c l k
  { replicas := sunion (sunion (sunion cfg.replicas v.1) (v.2.getD []))
      (primaryServers pr)
    voters := v.1
    temp_voters := v.2
    primary := pr
    branch := nextBranch c ack pr }

/-- The whole-table state: the live contracts with their ids and regions,
and the next fresh contract id. -/
structure TableState where
  contracts : List (ContractId × KeyRange × Contract)
  next_id : ContractId
deriving DecidableEq

/-- The interior cut points contributed by the version maps of
`secondary_need_primary` acks inside the region `[left, right)`: the
region is split there before computing contracts, so that a different
contract can be emitted on each side (the FailoverSplit case). -/
def cutsFor (l : List (Server × AckState)) (left : Key) (right : RB) :
    List Key :=
  sortKeys (dedupKeys
    ((l.filterMap (fun e =>
        match e.2 with
        | AckState.secondary_need_primary vm _ =>
            some (vm.map (fun p => p.1.left))
        | _ => none)).flatten.filter
      (fun k => left < k && RB.lt (RB.key k) right)))

/-- Split `[left, right)` at the given ascending interior cut points. -/
def splitRegion (left : Key) (right : RB) : List Key → List KeyRange
  | [] => [⟨left, right⟩]
  | k :: rest => ⟨left, RB.key k⟩ :: splitRegion k right rest

/-- The next contracts for one existing contract: one per piece of its
region, each computed from the acks evaluated at the piece's left end
(the cut points make every version map constant on each piece). -/
def piecesFor (cfg : Config) (l : List (Server × AckState)) (r : KeyRange)
    (c : Contract) : List (KeyRange × Contract) :=
  (splitRegion r.left r.right (cutsFor l r.left r.right)).map
    (fun pc => (pc, calcContract cfg c l pc.left))

/-- The diff produced by one coordinator run. -/
structure Diff where
  removes : List ContractId
  adds : List (ContractId × KeyRange × Contract)
  next_id : ContractId
deriving DecidableEq

/-- Number the pieces with fresh contract ids starting at `n`. -/
def withIds (n : ContractId) : List (KeyRange × Contract) →
    List (ContractId × KeyRange × Contract)
  | [] => []
  | pc :: rest => (n, pc.1, pc.2) :: withIds (n + 1) rest

/-- Modelled from the spec (step E and the top-level transition;
`calculate_all_contracts` in the missing coordinator.cc): process each
contract; reuse the id when the new contract is a single piece bitwise
equal to the old one, otherwise remove the old contract and mint fresh
ids for the new pieces. -/
def calcDiffAux (cfg : Config) (acks : Acks) :
    List (ContractId × KeyRange × Contract) → ContractId → Diff
  | [], n => ⟨[], [], n⟩
  | e :: rest, n =>
      let ps := piecesFor cfg (acksFor acks e.1) e.2.1 e.2.2
      if ps = [e.2] then calcDiffAux cfg acks rest n
      else
        let d := calcDiffAux cfg acks rest (n + ps.length)
        ⟨e.1 :: d.removes, withIds n ps ++ d.adds, d.next_id⟩

def calcDiff (cfg : Config) (st : TableState) (acks : Acks) : Diff :=
  calcDiffAux cfg acks st.contracts st.next_id

/-- The contracts whose ids are not being removed. -/
def keepContracts :
    List (ContractId × KeyRange × Contract) → List ContractId →
      List (ContractId × KeyRange × Contract)
  | [], _ => []
  | e :: rest, rem =>
      if e.1 ∈ rem then keepContracts rest rem
      else e :: keepContracts rest rem

/-- Apply a diff to the state, as `coordinator_tester_t::coordinate`
does: erase removed contracts, insert added ones. -/
def applyDiff (st : TableState) (d : Diff) : TableState :=
  ⟨keepContracts st.contracts d.removes ++ d.adds, d.next_id⟩

/-- Clean out acks for obsolete contracts, as
`coordinator_tester_t::coordinate` does. -/
def cleanAcks : Acks → List ContractId → Acks
  | [], _ => []
  | e :: rest, rem =>
      if e.1.2 ∈ rem then cleanAcks rest rem
      else e :: cleanAcks rest rem

/-- One full coordinator run: compute the diff, apply it, drop acks of
removed contracts. -/
def coordinate (cfg : Config) (st : TableState) (acks : Acks) :
    TableState × Acks :=
  let d := calcDiff cfg st acks
  (applyDiff st d, cleanAcks acks d.removes)

/-- Well-formed state: distinct contract ids, all below `next_id`. -/
def WFState (st : TableState) : Prop :=
  (st.contracts.map (fun e => e.1)).Nodup ∧
  ∀ e ∈ st.contracts, e.1 < st.next_id

/-- Well-formed acks: only contract ids below `next_id` are referenced. -/
def WFAcks (st : TableState) (acks : Acks) : Prop :=
  ∀ e ∈ acks, e.1.2 < st.next_id

/-- Well-formed config: the named primary is one of the replicas. -/
def WFConfig (cfg : Config) : Prop := cfg.primary ∈ cfg.replicas

/-- The role-containment property of a contract: `voters ⊆ replicas`,
`temp_voters ⊆ replicas` when present, `primary.server ∈ replicas` when
present, and `primary.hand_over ∈ replicas` when present. -/
def contract_roles_ok (c : Contract) : Prop :=
  c.voters ⊆ c.replicas ∧
  (∀ tv, c.temp_voters = some tv → tv ⊆ c.replicas) ∧
  (∀ p, c.primary = some p → p.server ∈ c.replicas ∧
    ∀ q, p.hand_over = some q → q ∈ c.replicas)

/-!
### Branch history (spec-modelled)

The branch-history calculator (`calculate_branch_history` in the missing
coordinator.cc) completes the top-level transition: a run's diff consists
of the contract removals/additions together with the branch
removals/additions computed from them.
-/

/-- Modelled from the spec: a branch-history node — the branch's
per-region origin: parent branch (none for a root branch) and the
timestamp at which it split off. -/
structure BranchNode where
  origin : List (KeyRange × Option BranchId × Nat)
deriving DecidableEq

/-- The branch-history store: branch ids with their nodes. -/
abbrev BranchHistory := List (BranchId × BranchNode)

/-- The branch-history fragments the acks carry (the
`contract_ack_t::branch_history` field), keyed like the acks map. -/
abbrev FragMap := List ((Server × ContractId) × BranchHistory)

/-- The parent branches a node points to. -/
def nodeParents (n : BranchNode) : List BranchId :=
  n.origin.filterMap (fun p => p.2.1)

/-- Look a branch up in a store (first entry wins, as in a `std::map`). -/
def lookupB : BranchHistory → BranchId → Option BranchNode
  | [], _ => none
  | e :: rest, b => if e.1 = b then some e.2 else lookupB rest b

/-- The parents of `b` recorded in the store (none if `b` is absent). -/
def branchParents (h : BranchHistory) (b : BranchId) : List BranchId :=
  match lookupB h b with
  | some n => nodeParents n
  | none => []

/-- Canonical (sorted, duplicate-free) form of a list of ids. -/
def canonKeys (l : List Nat) : List Nat := sortKeys (dedupKeys l)

/-- One expansion step of the transitive closure: add the parents of
every id already reached. -/
def expandOnce (h : BranchHistory) (acc : List BranchId) : List BranchId :=
  canonKeys (acc ++ (acc.map (branchParents h)).flatten)

def reachN (h : BranchHistory) : Nat → List BranchId → List BranchId
  | 0, acc => acc
  | n + 1, acc => reachN h n (expandOnce h acc)

/-- All parent ids mentioned anywhere in a store: a bound on what the
closure can ever add. -/
def allParents (h : BranchHistory) : List BranchId :=
  (h.map (fun e => nodeParents e.2)).flatten

/-- The ids reachable from `roots` through parent links: iterate the
expansion enough times to reach a fixed point (the candidate universe is
finite, so `|universe| + 1` rounds always suffice). -/
def reachable (h : BranchHistory) (roots : List BranchId) : List BranchId :=
  reachN h ((canonKeys (roots ++ allParents h)).length + 1) (canonKeys roots)

/-- The store entries kept when the branches in `rem` are erased. -/
def keepBranches : BranchHistory → List BranchId → BranchHistory
  | [], _ => []
  | e :: rest, rem =>
      if e.1 ∈ rem then keepBranches rest rem
      else e :: keepBranches rest rem

/-- Drop the fragments of obsolete contracts, like `cleanAcks`. -/
def cleanFrags : FragMap → List ContractId → FragMap
  | [], _ => []
  | e :: rest, rem =>
      if e.1.2 ∈ rem then cleanFrags rest rem
      else e :: cleanFrags rest rem

/-- All fragment entries carried by the acks. -/
def fragsAll (frags : FragMap) : BranchHistory :=
  (frags.map Prod.snd).flatten

/-- The stored branches that are outside the reachable set:
`branches_to_remove`. -/
def branchRemovals (bh : BranchHistory) (reach : List BranchId) :
    List BranchId :=
  (bh.map Prod.fst).filter (fun b => decide (b ∉ reach))

/-- The fragment entries for reachable branches not yet stored:
`branches_to_add`. -/
def branchAdditions (bh frag : BranchHistory) (reach : List BranchId) :
    BranchHistory :=
  frag.filter (fun e => decide (e.1 ∈ reach ∧ e.1 ∉ bh.map Prod.fst))

/-- The branches referenced by the contracts surviving a run. -/
def survivingRoots (st : TableState) (removes : List ContractId)
    (adds : List (ContractId × KeyRange × Contract)) : List BranchId :=
  (keepContracts st.contracts removes ++ adds).map (fun e => e.2.2.branch)

/-- Modelled from the spec (the branch-history calculator;
`calculate_branch_history` in the missing coordinator.cc): collect every
branch referenced by a surviving contract, transitively close over the
parent links of the store extended by the acks' fragments, emit as
removals the stored branches that are no longer reachable, and as
additions the fragment entries for reachable branches not yet stored. -/
def calculate_branch_history (st : TableState) (bh : BranchHistory)
    (frags : FragMap) (removes : List ContractId)
    (adds : List (ContractId × KeyRange × Contract)) :
    List BranchId × BranchHistory :=
  (branchRemovals bh
    (reachable (bh ++ fragsAll frags) (survivingRoots st removes adds)),
   branchAdditions bh (fragsAll frags)
    (reachable (bh ++ fragsAll frags) (survivingRoots st removes adds)))

/-- One full coordinator run (the spec's four-set top-level transition):
the contract diff, the branch diff computed from it, both applied, and
the acks and fragments of removed contracts dropped. -/
def coordinate_full (cfg : Config) (st : TableState) (bh : BranchHistory)
    (acks : Acks) (frags : FragMap) :
    (TableState × BranchHistory) × (Acks × FragMap) :=
  let d := calcDiff cfg st acks
  let bd := calculate_branch_history st bh frags d.removes d.adds
  ((applyDiff st d, keepBranches bh bd.1 ++ bd.2),
   (cleanAcks acks d.removes, cleanFrags frags d.removes))

/-!
Concrete scenario data.  Servers are numbered A = 0, B = 1, C = 2;
branches br1 = 1, br2 = 2; keys number the letters A..Z as 0..25, so the
boundary between the ranges `*-M` and `N-*` of the scenarios is key 13.
-/

/-- The full key-space `*-*`. -/
def fullR : KeyRange := ⟨0, RB.unbounded⟩

/-- Failover: config with replicas `{A, B, C}` and primary A. -/
def failoverCfg : Config := ⟨[0, 1, 2], 0⟩

/-- Failover: the starting contract `simple({A,B,C}, A, br1)`. -/
def failoverContract : Contract :=
  ⟨[0, 1, 2], [0, 1, 2], none, some ⟨0, none⟩, 1⟩

/-- Failover: the starting state (contract id 10). -/
def failoverState : TableState := ⟨[(10, fullR, failoverContract)], 11⟩

/-- Failover acks: A's ack removed; B and C report
`secondary_need_primary` on br1 at timestamps 100 and 101, with the given
failover-timeout flags. -/
def failoverAcks (eb ec : Bool) : Acks :=
  [((1, 10), AckState.secondary_need_primary [(fullR, 100)] eb),
   ((2, 10), AckState.secondary_need_primary [(fullR, 101)] ec)]

/-- The `no_primary({A,B,C}, br1)` contract the failover produces. -/
def failoverResult : Contract := ⟨[0, 1, 2], [0, 1, 2], none, none, 1⟩

/-- The branch store of the failover scenario: br1 is a root branch over
the whole key-space. -/
def failoverBranches : BranchHistory := [(1, ⟨[(fullR, none, 0)]⟩)]

/-- FailoverSplit: a no-primary contract over the full key-space. -/
def fsplitState : TableState := ⟨[(10, fullR, failoverResult)], 11⟩

/-- FailoverSplit acks: B reports 100 over the whole region; C reports
101 over `*-M` and 99 over `N-*`; both timeouts elapsed. -/
def fsplitAcks : Acks :=
  [((1, 10), AckState.secondary_need_primary [(fullR, 100)] true),
   ((2, 10), AckState.secondary_need_primary
      [(⟨0, RB.key 13⟩, 101), (⟨13, RB.unbounded⟩, 99)] true)]

/-- AddReplica: the changed config `{replicas: {A, B}, primary: A}`. -/
def addCfg : Config := ⟨[0, 1], 0⟩

/-- AddReplica: `simple({A}, A, br1)`. -/
def addC1 : Contract := ⟨[0], [0], none, some ⟨0, none⟩, 1⟩

/-- AddReplica: B joins `replicas` while `voters = {A}`. -/
def addC2 : Contract := ⟨[0, 1], [0], none, some ⟨0, none⟩, 1⟩

/-- AddReplica: the joint-consensus stage `temp_voters = {A, B}`. -/
def addC3 : Contract := ⟨[0, 1], [0], some [0, 1], some ⟨0, none⟩, 1⟩

/-- AddReplica: the final `simple({A,B}, A, br1)`. -/
def addC4 : Contract := ⟨[0, 1], [0, 1], none, some ⟨0, none⟩, 1⟩

/-- ChangePrimary: the changed config `{replicas: {A, B}, primary: B}`. -/
def chgCfg : Config := ⟨[0, 1], 1⟩

/-- ChangePrimary: `simple({A,B}, A, br1)`. -/
def chgC1 : Contract := ⟨[0, 1], [0, 1], none, some ⟨0, none⟩, 1⟩

/-- ChangePrimary: the hand-over contract `{primary: {A, hand_over: B}}`. -/
def chgC2 : Contract := ⟨[0, 1], [0, 1], none, some ⟨0, some 1⟩, 1⟩

/-- ChangePrimary: the no-primary contract. -/
def chgC3 : Contract := ⟨[0, 1], [0, 1], none, none, 1⟩

/-- ChangePrimary: `{primary: B, branch: br1}`. -/
def chgC4 : Contract := ⟨[0, 1], [0, 1], none, some ⟨1, none⟩, 1⟩

/-- ChangePrimary: the final contract on B's new branch br2. -/
def chgC5 : Contract := ⟨[0, 1], [0, 1], none, some ⟨1, none⟩, 2⟩

end Coordinator

namespace BackfillAtomSeq

/-- Bookkeeping along the loop of `delete_to_key`: if the running size is
the sum of the atoms' sizes, it remains so. -/
theorem delete_loop_wf (F : AtomFns α) (cut : RB) :
    ∀ (l : List α) (m : Nat), m = (l.map F.get_mem_size).sum →
      (delete_loop F cut l m).2 =
        (((delete_loop F cut l m).1).map F.get_mem_size).sum := by
  intro l
  induction l with
  | nil => intro m hm; simpa [delete_loop] using hm
  | cons a rest ih =>
      intro m hm
      simp only [List.map_cons, List.sum_cons] at hm
      rw [delete_loop]
      split
      · exact ih _ (by omega)
      · split
        · simpa using hm
        · simp only [List.map_cons, List.sum_cons]
          omega

/-- C8 — `backfill_atom_seq_t` size bookkeeping: the bounded constructor
establishes `mem_size = Σ atom sizes`, and `push_back`,
`push_back_nothing`, `pop_front`, `pop_front_into`, `delete_to_key` and
`concat` all preserve it; `pop_front_into` moreover preserves the combined
`mem_size` of the two sequences. -/
theorem mem_size_bookkeeping {α : Type} (F : AtomFns α) :
    (∀ bh eh key, seq_wf F (mkSeq α bh eh key)) ∧
    (∀ s atom s', seq_wf F s → push_back F s atom = some s' → seq_wf F s') ∧
    (∀ s bound s', seq_wf F s → push_back_nothing s bound = some s' →
      seq_wf F s') ∧
    (∀ s s', seq_wf F s → pop_front F s = some s' → seq_wf F s') ∧
    (∀ s other s' other', seq_wf F s → seq_wf F other →
      pop_front_into F s other = some (s', other') →
      seq_wf F s' ∧ seq_wf F other' ∧
        s'.mem_size + other'.mem_size = s.mem_size + other.mem_size) ∧
    (∀ s cut s', seq_wf F s → delete_to_key F s cut = some s' →
      seq_wf F s') ∧
    (∀ s other s', seq_wf F s → seq_wf F other → concat s other = some s' →
      seq_wf F s') := by
  refine ⟨?_, ?_, ?_, ?_, ?_, ?_, ?_⟩
  · intro bh eh key
    rfl
  · intro s atom s' hwf h
    rw [push_back] at h
    split at h
    · cases h
      simp only [seq_wf] at hwf ⊢
      simp [hwf]
    · cases h
  · intro s bound s' hwf h
    rw [push_back_nothing] at h
    split at h
    · cases h
      exact hwf
    · cases h
  · intro s s' hwf h
    rw [pop_front] at h
    split at h
    · cases h
    · rename_i a rest heq
      cases h
      simp only [seq_wf, heq, List.map_cons, List.sum_cons] at hwf ⊢
      omega
  · intro s other s' other' hwf hwfo h
    rw [pop_front_into] at h
    split at h
    · split at h
      · split at h
        · cases h
        · rename_i a rest heq
          cases h
          simp only [seq_wf, heq, List.map_cons, List.sum_cons] at hwf
          refine ⟨?_, ?_, ?_⟩
          · show s.mem_size - F.get_mem_size a = (rest.map F.get_mem_size).sum
            omega
          · show other.mem_size + F.get_mem_size a =
              ((other.atoms ++ [a]).map F.get_mem_size).sum
            simp only [seq_wf] at hwfo
            simp [hwfo]
          · show s.mem_size - F.get_mem_size a +
              (other.mem_size + F.get_mem_size a) = s.mem_size + other.mem_size
            omega
      · cases h
    · cases h
  · intro s cut s' hwf h
    rw [delete_to_key] at h
    split at h
    · cases h
      exact delete_loop_wf F cut s.atoms s.mem_size hwf
    · cases h
  · intro s other s' hwf hwfo h
    rw [concat] at h
    split at h
    · split at h
      · cases h
        simp only [seq_wf] at hwf hwfo ⊢
        simp [hwf, hwfo]
      · cases h
    · cases h

/-- Witness for C8: the bookkeeping invariant holds of `demoSeq` and is
carried through a concrete `push_back`. -/
theorem mem_size_bookkeeping_witness :
    seq_wf demoFns demoSeq ∧
    push_back demoFns demoSeq (⟨4, RB.key 6⟩, 4) =
      some ⟨7, 9, RB.key 0, RB.key 6, 9,
        [(⟨0, RB.key 2⟩, 2), (⟨2, RB.key 4⟩, 3), (⟨4, RB.key 6⟩, 4)]⟩ ∧
    seq_wf demoFns
      ⟨7, 9, RB.key 0, RB.key 6, 9,
        [(⟨0, RB.key 2⟩, 2), (⟨2, RB.key 4⟩, 3), (⟨4, RB.key 6⟩, 4)]⟩ :=
  ⟨by rfl, by rfl,
    (mem_size_bookkeeping demoFns).2.1 demoSeq (⟨4, RB.key 6⟩, 4) _
      (by rfl) (by rfl)⟩

/-- C9 — `first_before_threshold`: the call returns `false` (`none`) iff
the sequence is empty and its right key is strictly before the threshold;
otherwise it returns `true`, with `*first_out` set to the front atom
exactly when the sequence is non-empty and the front atom's left bound is
strictly before the threshold, and to null otherwise. -/
theorem first_before_threshold_spec {α : Type} (F : AtomFns α)
    (s : BackfillAtomSeq α) (t : RB) :
    (first_before_threshold F s t = none ↔
      s.atoms = [] ∧ RB.lt s.right_key t = true) ∧
    (∀ a, first_before_threshold F s t = some (some a) ↔
      ∃ rest, s.atoms = a :: rest ∧
        RB.lt (RB.key (F.get_range a).left) t = true) ∧
    (first_before_threshold F s t = some none ↔
      (s.atoms = [] ∧ RB.lt s.right_key t = false) ∨
      ∃ a rest, s.atoms = a :: rest ∧
        RB.lt (RB.key (F.get_range a).left) t = false) := by
  obtain ⟨bh, eh, lk, rk, ms, atoms⟩ := s
  cases atoms with
  | nil =>
      cases h : RB.lt rk t <;>
        simp [first_before_threshold, h]
  | cons a rest =>
      have hle := RB.le_iff_not_lt t (RB.key (F.get_range a).left)
      cases h : RB.lt (RB.key (F.get_range a).left) t <;>
        rw [h] at hle <;>
        simp only [Bool.not_false, Bool.not_true] at hle <;>
        simp [first_before_threshold, hle, h]

/-- The full statement of the `get_region` claim, for a sequence `s`:
the region is empty exactly when the bounds coincide (in particular for a
freshly constructed sequence), and otherwise is the half-open range from
the left key to the right key with the sequence's hash bounds. -/
def get_region_ok {α : Type} (s : BackfillAtomSeq α) : Prop :=
  (get_region s = Region.emptyR ↔ s.left_key = s.right_key) ∧
  (∀ k, s.left_key = RB.key k → s.left_key ≠ s.right_key →
    get_region s = ⟨s.beg_hash, s.end_hash, ⟨k, s.right_key⟩⟩) ∧
  (∀ bh eh key, get_region (mkSeq α bh eh key) = Region.emptyR)

/-- C10 — `get_region`: for every sequence whose left bound is at or
before its right bound, `get_region` returns the empty region exactly when
the two bounds coincide, and otherwise the region `[left_key, right_key)`
with the sequence's hash bounds. -/
theorem get_region_spec {α : Type} (s : BackfillAtomSeq α)
    (h : RB.le s.left_key s.right_key = true) : get_region_ok s := by
  refine ⟨?_, ?_, ?_⟩
  · constructor
    · intro hr
      by_contra hne
      rw [get_region, if_neg hne] at hr
      simp only [Region.emptyR, Region.mk.injEq, KeyRange.mk.injEq] at hr
      obtain ⟨-, -, -, hrk⟩ := hr
      cases hlk : s.left_key with
      | unbounded =>
          rw [hlk, hrk] at h
          simp [RB.le] at h
      | key j =>
          rw [hlk, hrk] at h
          have hj : j = 0 := by simpa [RB.le] using h
          apply hne
          rw [hlk, hrk, hj]
    · intro hr
      rw [get_region, if_pos hr]
  · intro k hk hne
    rw [get_region, if_neg hne, hk]
    rfl
  · intro bh eh key
    simp [get_region, mkSeq]

/-- Witness for C10: `get_region_spec` applied to `demoSeq`. -/
theorem get_region_spec_witness :
    RB.le demoSeq.left_key demoSeq.right_key = true ∧ get_region_ok demoSeq :=
  ⟨by decide, get_region_spec demoSeq (by decide)⟩

end BackfillAtomSeq

namespace Coordinator

/-- C1 — Failover scenario: from `simple({A,B,C}, A, br1)` with A's ack
removed and B, C acking `secondary_need_primary` at timestamps 100 and
101 on br1, a run with only one of the two timeout flags set leaves the
state untouched (same contract id); once both flags are set the run
replaces the contract by `no_primary({A,B,C}, br1)`. -/
theorem failover_scenario :
    coordinate failoverCfg failoverState (failoverAcks true false) =
      (failoverState, failoverAcks true false) ∧
    coordinate failoverCfg failoverState (failoverAcks false true) =
      (failoverState, failoverAcks false true) ∧
    coordinate failoverCfg failoverState (failoverAcks true true) =
      (⟨[(11, fullR, failoverResult)], 12⟩, []) :=
  ⟨by decide, by decide, by decide⟩

/-- C2 — FailoverSplit scenario: from a no-primary contract over the full
key-space with B reporting timestamp 100 everywhere and C reporting 101
over `*-M` and 99 over `N-*`, one run splits the region at `M|N` and
elects C as primary for `*-M` (101 > 100) and B for `N-*` (100 > 99),
both contracts keeping branch br1 and replicas `{A,B,C}`. -/
theorem failover_split_scenario :
    coordinate failoverCfg fsplitState fsplitAcks =
      (⟨[(11, ⟨0, RB.key 13⟩,
            ⟨[0, 1, 2], [0, 1, 2], none, some ⟨2, none⟩, 1⟩),
         (12, ⟨13, RB.unbounded⟩,
            ⟨[0, 1, 2], [0, 1, 2], none, some ⟨1, none⟩, 1⟩)], 13⟩,
       []) := by
  decide

/-- C3 — AddReplica scenario: after the config gains B, three successive
runs (with the indicated acks applied between them) produce, one stage
per run and never collapsed: first `replicas = {A,B}, voters = {A}`; then
the joint-consensus stage `temp_voters = {A,B}`; then the final
`simple({A,B}, A, br1)`. -/
theorem add_replica_scenario :
    coordinate addCfg ⟨[(0, fullR, addC1)], 1⟩
        [((0, 0), AckState.primary_ready), ((1, 0), AckState.nothing)] =
      (⟨[(1, fullR, addC2)], 2⟩, []) ∧
    coordinate addCfg ⟨[(1, fullR, addC2)], 2⟩
        [((0, 1), AckState.primary_ready),
         ((1, 1), AckState.secondary_streaming)] =
      (⟨[(2, fullR, addC3)], 3⟩, []) ∧
    coordinate addCfg ⟨[(2, fullR, addC3)], 3⟩
        [((0, 2), AckState.primary_ready),
         ((1, 2), AckState.secondary_streaming)] =
      (⟨[(3, fullR, addC4)], 4⟩, []) :=
  ⟨by decide, by decide, by decide⟩

/-- C4 — ChangePrimary scenario: after the config's primary switches from
A to B, four successive runs produce: the hand-over contract
`{A, hand_over: B}`; then no primary; then primary B on the old branch
br1 once both replicas ack `secondary_need_primary`; then, after B acks
`primary_need_branch` proposing br2, the contract on branch br2. -/
theorem change_primary_scenario :
    coordinate chgCfg ⟨[(0, fullR, chgC1)], 1⟩
        [((0, 0), AckState.primary_ready),
         ((1, 0), AckState.secondary_streaming)] =
      (⟨[(1, fullR, chgC2)], 2⟩, []) ∧
    coordinate chgCfg ⟨[(1, fullR, chgC2)], 2⟩
        [((0, 1), AckState.primary_ready),
         ((1, 1), AckState.secondary_streaming)] =
      (⟨[(2, fullR, chgC3)], 3⟩, []) ∧
    coordinate chgCfg ⟨[(2, fullR, chgC3)], 3⟩
        [((0, 2), AckState.secondary_need_primary [(fullR, 123)] false),
         ((1, 2), AckState.secondary_need_primary [(fullR, 123)] false)] =
      (⟨[(3, fullR, chgC4)], 4⟩, []) ∧
    coordinate chgCfg ⟨[(3, fullR, chgC4)], 4⟩
        [((0, 3), AckState.secondary_need_primary [(fullR, 123)] false),
         ((1, 3), AckState.primary_need_branch 2)] =
      (⟨[(4, fullR, chgC5)], 5⟩, []) :=
  ⟨by decide, by decide, by decide, by decide⟩

/-! Helper lemmas: a contract computed by `calcContract` is a fixed point
of `calcContract` under an empty ack list.  This is the heart of the
idempotence property. -/

theorem caughtUp_nil (c : Contract) (k : Key) (s : Server) :
    caughtUp c (fun s => ackAtKey (ackOf [] s) k) s = false := by
  simp [caughtUp, ackOf, ackAtKey, primaryAlive]

theorem nextVoters_nil (cfg : Config) (c : Contract) (k : Key)
    (hcfg : cfg.replicas ≠ [])
    (htv : ∀ tv, c.temp_voters = some tv → tv ≠ []) :
    nextVoters cfg c (fun s => ackAtKey (ackOf [] s) k) =
      (c.voters, c.temp_voters) := by
  cases htv' : c.temp_voters with
  | some tv =>
      have hne := htv tv htv'
      simp only [nextVoters, htv']
      rw [if_neg]
      intro hall
      obtain ⟨x, hx⟩ := List.exists_mem_of_ne_nil tv hne
      have := hall x hx
      rw [caughtUp_nil] at this
      cases this
  | none =>
      simp only [nextVoters, htv']
      rw [if_neg]
      rintro ⟨-, hall⟩
      obtain ⟨x, hx⟩ := List.exists_mem_of_ne_nil cfg.replicas hcfg
      have := hall x hx
      rw [caughtUp_nil] at this
      cases this

theorem nextPrimary_nil (cfg : Config) (c : Contract) (k : Key) :
    nextPrimary cfg c [] k = c.primary := by
  cases hp : c.primary with
  | none =>
      simp only [nextPrimary, hp, ackedServers, dedupKeys, sortKeys,
        List.map_nil, List.filter_nil, List.length_nil]
      rw [if_neg]
      omega
  | some pr =>
      obtain ⟨p, ho⟩ := pr
      cases ho with
      | none =>
          simp only [nextPrimary, hp, ackedServers, dedupKeys, sortKeys,
            List.map_nil, List.filter_nil, List.length_nil]
          rw [if_neg, if_neg]
          · rintro ⟨-, hstr⟩
            simp [ackOf, ackAtKey] at hstr
          · rintro ⟨-, hq⟩
            omega
      | some q =>
          simp only [nextPrimary, hp]
          rw [if_neg]
          rintro ⟨hpr, -⟩
          simp [ackOf, ackAtKey] at hpr

theorem nextBranch_nil (c : Contract) (k : Key) (pr : Option Primary) :
    nextBranch c (fun s => ackAtKey (ackOf [] s) k) pr = c.branch := by
  cases pr with
  | none => rfl
  | some p => simp [nextBranch, ackOf, ackAtKey]

/-- A staged `temp_voters` is never empty: a non-empty config voter set is
staged, and an empty pending set would have been committed. -/
theorem calcContract_temp_voters_ne_nil (cfg : Config) (c : Contract)
    (l : List (Server × AckState)) (k : Key) (hcfg : cfg.replicas ≠ [])
    (tv : List Server)
    (htv : (calcContract cfg c l k).temp_voters = some tv) : tv ≠ [] := by
  have hv : (nextVoters cfg c (fun s => ackAtKey (ackOf l s) k)).2 = some tv :=
    htv
  cases h0 : c.temp_voters with
  | some tv0 =>
      simp only [nextVoters, h0] at hv
      by_cases hall : ∀ s ∈ tv0,
          caughtUp c (fun s => ackAtKey (ackOf l s) k) s = true
      · rw [if_pos hall] at hv
        cases hv
      · rw [if_neg hall] at hv
        cases hv
        intro hnil
        apply hall
        intro s hs
        rw [hnil] at hs
        cases hs
  | none =>
      simp only [nextVoters, h0] at hv
      by_cases hcd : cfg.replicas ≠ c.voters ∧ ∀ s ∈ cfg.replicas,
          caughtUp c (fun s => ackAtKey (ackOf l s) k) s = true
      · rw [if_pos hcd] at hv
        cases hv
        exact hcfg
      · rw [if_neg hcd] at hv
        cases hv

/-- Stability: a contract just computed by `calcContract` is unchanged by
a further `calcContract` with no acks. -/
theorem calcContract_stable (cfg : Config) (c : Contract)
    (l : List (Server × AckState)) (k k2 : Key)
    (hcfg : cfg.primary ∈ cfg.replicas) :
    calcContract cfg (calcContract cfg c l k) [] k2 =
      calcContract cfg c l k := by
  have hcfgne : cfg.replicas ≠ [] := by
    intro h
    rw [h] at hcfg
    cases hcfg
  have hv : nextVoters cfg (calcContract cfg c l k)
      (fun s => ackAtKey (ackOf [] s) k2) =
      ((calcContract cfg c l k).voters, (calcContract cfg c l k).temp_voters) :=
    nextVoters_nil cfg _ k2 hcfgne
      (calcContract_temp_voters_ne_nil cfg c l k hcfgne)
  have hp : nextPrimary cfg (calcContract cfg c l k) [] k2 =
      (calcContract cfg c l k).primary := nextPrimary_nil cfg _ k2
  show calcContract cfg (calcContract cfg c l k) [] k2 = calcContract cfg c l k
  rw [calcContract, hv, hp,
    nextBranch_nil (calcContract cfg c l k) k2 (calcContract cfg c l k).primary]
  rfl

/-! Helper lemmas about the per-run diff computation. -/

theorem withIds_mem (ps : List (KeyRange × Contract)) :
    ∀ (n : ContractId) (a : ContractId × KeyRange × Contract),
      a ∈ withIds n ps → n ≤ a.1 ∧ a.2 ∈ ps := by
  induction ps with
  | nil => intro n a ha; cases ha
  | cons pc rest ih =>
      intro n a ha
      rw [withIds] at ha
      rcases List.mem_cons.mp ha with h | h
      · subst h
        exact ⟨Nat.le_refl n, List.mem_cons_self _ _⟩
      · obtain ⟨h1, h2⟩ := ih (n + 1) a h
        exact ⟨Nat.le_of_succ_le h1, List.mem_cons_of_mem _ h2⟩

theorem calcDiffAux_nochange (cfg : Config) (acks : Acks) :
    ∀ (l : List (ContractId × KeyRange × Contract)) (n : ContractId),
      (∀ e ∈ l, piecesFor cfg (acksFor acks e.1) e.2.1 e.2.2 = [e.2]) →
      calcDiffAux cfg acks l n = ⟨[], [], n⟩ := by
  intro l
  induction l with
  | nil => intro n _; rfl
  | cons e rest ih =>
      intro n h
      rw [calcDiffAux, if_pos (h e (List.mem_cons_self _ _))]
      exact ih n (fun x hx => h x (List.mem_cons_of_mem _ hx))

theorem calcDiffAux_removed_of_changed (cfg : Config) (acks : Acks) :
    ∀ (l : List (ContractId × KeyRange × Contract)) (n : ContractId)
      (e : ContractId × KeyRange × Contract), e ∈ l →
      piecesFor cfg (acksFor acks e.1) e.2.1 e.2.2 ≠ [e.2] →
      e.1 ∈ (calcDiffAux cfg acks l n).removes := by
  intro l
  induction l with
  | nil => intro n e he _; cases he
  | cons hd rest ih =>
      intro n e he hne
      rw [calcDiffAux]
      rcases List.mem_cons.mp he with h | h
      · subst h
        rw [if_neg hne]
        exact List.mem_cons_self _ _
      · by_cases hhd : piecesFor cfg (acksFor acks hd.1) hd.2.1 hd.2.2 = [hd.2]
        · rw [if_pos hhd]
          exact ih n e h hne
        · rw [if_neg hhd]
          exact List.mem_cons_of_mem _ (ih _ e h hne)

theorem calcDiffAux_removes_sub (cfg : Config) (acks : Acks) :
    ∀ (l : List (ContractId × KeyRange × Contract)) (n : ContractId)
      (i : ContractId), i ∈ (calcDiffAux cfg acks l n).removes →
      ∃ e, e ∈ l ∧ e.1 = i ∧
        piecesFor cfg (acksFor acks e.1) e.2.1 e.2.2 ≠ [e.2] := by
  intro l
  induction l with
  | nil => intro n i hi; cases hi
  | cons hd rest ih =>
      intro n i hi
      rw [calcDiffAux] at hi
      by_cases hhd : piecesFor cfg (acksFor acks hd.1) hd.2.1 hd.2.2 = [hd.2]
      · rw [if_pos hhd] at hi
        obtain ⟨e, he, h1, h2⟩ := ih n i hi
        exact ⟨e, List.mem_cons_of_mem _ he, h1, h2⟩
      · rw [if_neg hhd] at hi
        rcases List.mem_cons.mp hi with h | h
        · exact ⟨hd, List.mem_cons_self _ _, h.symm, hhd⟩
        · obtain ⟨e, he, h1, h2⟩ := ih _ i h
          exact ⟨e, List.mem_cons_of_mem _ he, h1, h2⟩

theorem calcDiffAux_adds_shape (cfg : Config) (acks : Acks) :
    ∀ (l : List (ContractId × KeyRange × Contract)) (n : ContractId)
      (a : ContractId × KeyRange × Contract),
      a ∈ (calcDiffAux cfg acks l n).adds →
      n ≤ a.1 ∧ ∃ e, e ∈ l ∧
        a.2 ∈ piecesFor cfg (acksFor acks e.1) e.2.1 e.2.2 := by
  intro l
  induction l with
  | nil => intro n a ha; cases ha
  | cons hd rest ih =>
      intro n a ha
      rw [calcDiffAux] at ha
      by_cases hhd : piecesFor cfg (acksFor acks hd.1) hd.2.1 hd.2.2 = [hd.2]
      · rw [if_pos hhd] at ha
        obtain ⟨h1, e, he, h2⟩ := ih n a ha
        exact ⟨h1, e, List.mem_cons_of_mem _ he, h2⟩
      · rw [if_neg hhd] at ha
        rcases List.mem_append.mp ha with h | h
        · obtain ⟨h1, h2⟩ := withIds_mem _ n a h
          exact ⟨h1, hd, List.mem_cons_self _ _, h2⟩
        · obtain ⟨h1, e, he, h2⟩ := ih _ a h
          exact ⟨Nat.le_trans (Nat.le_add_right n _) h1, e,
            List.mem_cons_of_mem _ he, h2⟩

/-! Helper lemmas about ack bookkeeping across a run. -/

theorem acksFor_cleanAcks (rem : List ContractId) (cid : ContractId)
    (h : cid ∉ rem) :
    ∀ acks : Acks, acksFor (cleanAcks acks rem) cid = acksFor acks cid := by
  intro acks
  induction acks with
  | nil => rfl
  | cons e rest ih =>
      rw [cleanAcks, acksFor]
      by_cases he : e.1.2 ∈ rem
      · have h2 : e.1.2 ≠ cid := fun hc => h (hc ▸ he)
        rw [if_pos he, if_neg h2]
        exact ih
      · rw [if_neg he, acksFor]
        by_cases h2 : e.1.2 = cid
        · rw [if_pos h2, if_pos h2]
          exact congrArg _ ih
        · rw [if_neg h2, if_neg h2]
          exact ih

theorem acksFor_nil_of_fresh (cid : ContractId) :
    ∀ acks : Acks, (∀ e ∈ acks, e.1.2 ≠ cid) → acksFor acks cid = [] := by
  intro acks
  induction acks with
  | nil => intro _; rfl
  | cons e rest ih =>
      intro h
      rw [acksFor, if_neg (h e (List.mem_cons_self _ _))]
      exact ih (fun x hx => h x (List.mem_cons_of_mem _ hx))

/-- Under an empty ack list a stable contract yields exactly its own
single piece. -/
theorem piecesFor_nil (cfg : Config) (r : KeyRange) (c1 : Contract)
    (hstable : calcContract cfg c1 [] r.left = c1) :
    piecesFor cfg [] r c1 = [(r, c1)] := by
  rw [piecesFor]
  rw [show cutsFor [] r.left r.right = [] from rfl]
  rw [splitRegion, List.map_cons, List.map_nil]
  rw [show (⟨r.left, r.right⟩ : KeyRange) = r from rfl, hstable]

/-- Every piece's contract is a `calcContract` value at the piece's left
end. -/
theorem piecesFor_shape (cfg : Config) (l : List (Server × AckState))
    (r : KeyRange) (c : Contract) :
    ∀ pc ∈ piecesFor cfg l r c, pc.2 = calcContract cfg c l pc.1.left := by
  intro pc hpc
  rw [piecesFor] at hpc
  obtain ⟨reg, -, heq⟩ := List.mem_map.mp hpc
  subst heq
  rfl

theorem keepContracts_mem (rem : List ContractId) :
    ∀ (l : List (ContractId × KeyRange × Contract))
      (e : ContractId × KeyRange × Contract),
      e ∈ keepContracts l rem ↔ e ∈ l ∧ e.1 ∉ rem := by
  intro l
  induction l with
  | nil => intro e; rw [keepContracts]; simp
  | cons hd rest ih =>
      intro e
      rw [keepContracts]
      by_cases hh : hd.1 ∈ rem
      · rw [if_pos hh, ih]
        constructor
        · rintro ⟨h1, h2⟩
          exact ⟨List.mem_cons_of_mem _ h1, h2⟩
        · rintro ⟨h1, h2⟩
          rcases List.mem_cons.mp h1 with h | h
          · subst h
            exact absurd hh h2
          · exact ⟨h, h2⟩
      · rw [if_neg hh]
        constructor
        · intro hmem
          rcases List.mem_cons.mp hmem with h | h
          · subst h
            exact ⟨List.mem_cons_self _ _, hh⟩
          · obtain ⟨h1, h2⟩ := (ih e).mp h
            exact ⟨List.mem_cons_of_mem _ h1, h2⟩
        · rintro ⟨h1, h2⟩
          rcases List.mem_cons.mp h1 with h | h
          · subst h
            exact List.mem_cons_self _ _
          · exact List.mem_cons_of_mem _ ((ih e).mpr ⟨h, h2⟩)

theorem cleanAcks_subset (rem : List ContractId) :
    ∀ (acks : Acks) (a : (Server × ContractId) × AckState),
      a ∈ cleanAcks acks rem → a ∈ acks := by
  intro acks
  induction acks with
  | nil => intro a ha; cases ha
  | cons e rest ih =>
      intro a ha
      rw [cleanAcks] at ha
      by_cases he : e.1.2 ∈ rem
      · rw [if_pos he] at ha
        exact List.mem_cons_of_mem _ (ih a ha)
      · rw [if_neg he] at ha
        rcases List.mem_cons.mp ha with h | h
        · subst h
          exact List.mem_cons_self _ _
        · exact List.mem_cons_of_mem _ (ih a h)

/-- C5 — Idempotence: a `coordinate` run applies its own diff and cleans
the acks of removed contracts; running the coordinator again on the
resulting state with the same acks produces an empty diff (no contract
removed, none added), for every well-formed input.  Determinism is
intrinsic: the transition is a pure function of its inputs. -/
theorem coordinator_idempotent (cfg : Config) (st : TableState) (acks : Acks)
    (hcfg : WFConfig cfg) (_hst : WFState st) (hacks : WFAcks st acks) :
    (calcDiff cfg (coordinate cfg st acks).1
        (coordinate cfg st acks).2).removes = [] ∧
    (calcDiff cfg (coordinate cfg st acks).1
        (coordinate cfg st acks).2).adds = [] := by
  have key : ∀ e ∈ (coordinate cfg st acks).1.contracts,
      piecesFor cfg (acksFor (coordinate cfg st acks).2 e.1) e.2.1 e.2.2 =
        [e.2] := by
    intro e he
    have he' : e ∈ keepContracts st.contracts (calcDiff cfg st acks).removes ++
        (calcDiff cfg st acks).adds := he
    rcases List.mem_append.mp he' with hkept | hadd
    · obtain ⟨hmem, hnotrem⟩ := (keepContracts_mem _ _ e).mp hkept
      have hsame : piecesFor cfg (acksFor acks e.1) e.2.1 e.2.2 = [e.2] := by
        by_contra hne
        exact hnotrem (calcDiffAux_removed_of_changed cfg acks st.contracts
          st.next_id e hmem hne)
      have hacks' : acksFor (coordinate cfg st acks).2 e.1 =
          acksFor acks e.1 := acksFor_cleanAcks _ _ hnotrem acks
      rw [hacks', hsame]
    · obtain ⟨hle, e0, -, hpc⟩ :=
        calcDiffAux_adds_shape cfg acks st.contracts st.next_id e hadd
      have hfresh : acksFor (coordinate cfg st acks).2 e.1 = [] := by
        apply acksFor_nil_of_fresh
        intro a ha
        have hmem : a ∈ acks := cleanAcks_subset _ acks a ha
        have hlt := hacks a hmem
        intro hEq
        rw [hEq] at hlt
        exact Nat.lt_irrefl _ (Nat.lt_of_lt_of_le hlt hle)
      rw [hfresh]
      have hshape := piecesFor_shape cfg (acksFor acks e0.1) e0.2.1 e0.2.2
        e.2 hpc
      exact piecesFor_nil cfg e.2.1 e.2.2
        (by rw [hshape]; exact calcContract_stable cfg e0.2.2 _ _ _ hcfg)
  have hz := calcDiffAux_nochange cfg (coordinate cfg st acks).2
    (coordinate cfg st acks).1.contracts (coordinate cfg st acks).1.next_id key
  constructor
  · rw [calcDiff, hz]
  · rw [calcDiff, hz]

/-- C6 — Contract-id stability: for a well-formed state, a contract entry
survives a run with its id (and contents) intact exactly when the newly
computed contract for its region is a single piece bitwise equal to the
old contract; every other contract in the post-run state carries a
freshly minted id (at or above the pre-run `next_id`, hence distinct from
every prior id). -/
theorem contract_id_stability (cfg : Config) (st : TableState) (acks : Acks)
    (hst : WFState st) :
    (∀ e ∈ st.contracts,
      (e ∈ (coordinate cfg st acks).1.contracts ↔
        piecesFor cfg (acksFor acks e.1) e.2.1 e.2.2 = [e.2])) ∧
    (∀ a ∈ (coordinate cfg st acks).1.contracts,
      a ∉ st.contracts → st.next_id ≤ a.1) := by
  obtain ⟨hnd, hlt⟩ := hst
  constructor
  · intro e he
    constructor
    · intro hin
      have hin' : e ∈ keepContracts st.contracts
          (calcDiff cfg st acks).removes ++ (calcDiff cfg st acks).adds := hin
      rcases List.mem_append.mp hin' with hk | ha
      · obtain ⟨hmem, hnr⟩ := (keepContracts_mem _ _ e).mp hk
        by_contra hne
        exact hnr (calcDiffAux_removed_of_changed cfg acks st.contracts
          st.next_id e hmem hne)
      · obtain ⟨hle, -⟩ :=
          calcDiffAux_adds_shape cfg acks st.contracts st.next_id e ha
        exact absurd (hlt e he) (Nat.not_lt.mpr hle)
    · intro hsame
      have hnr : e.1 ∉ (calcDiff cfg st acks).removes := by
        intro hr
        obtain ⟨e', he', hid, hch⟩ :=
          calcDiffAux_removes_sub cfg acks st.contracts st.next_id e.1 hr
        have heq : e' = e :=
          List.inj_on_of_nodup_map hnd he' he hid
        rw [heq] at hch
        exact hch hsame
      show e ∈ keepContracts st.contracts
          (calcDiff cfg st acks).removes ++ (calcDiff cfg st acks).adds
      exact List.mem_append.mpr
        (Or.inl ((keepContracts_mem _ _ e).mpr ⟨he, hnr⟩))
  · intro a hain hnotin
    have hin' : a ∈ keepContracts st.contracts
        (calcDiff cfg st acks).removes ++ (calcDiff cfg st acks).adds := hain
    rcases List.mem_append.mp hin' with hk | ha
    · exact absurd ((keepContracts_mem _ _ a).mp hk).1 hnotin
    · exact (calcDiffAux_adds_shape cfg acks st.contracts st.next_id a ha).1

/-! Membership lemmas for the canonical set operations. -/

theorem mem_insertKey (k x : Nat) :
    ∀ l : List Nat, x ∈ insertKey k l ↔ x = k ∨ x ∈ l := by
  intro l
  induction l with
  | nil => simp [insertKey]
  | cons y ys ih =>
      rw [insertKey]
      by_cases h : k ≤ y
      · rw [if_pos h]
        simp [List.mem_cons]
      · rw [if_neg h]
        rw [List.mem_cons, ih, List.mem_cons]
        tauto

theorem mem_sortKeys (x : Nat) :
    ∀ l : List Nat, x ∈ sortKeys l ↔ x ∈ l := by
  intro l
  induction l with
  | nil => simp [sortKeys]
  | cons y ys ih =>
      rw [sortKeys, mem_insertKey, ih, List.mem_cons]

theorem mem_dedupKeys (x : Nat) :
    ∀ l : List Nat, x ∈ dedupKeys l ↔ x ∈ l := by
  intro l
  induction l with
  | nil => simp [dedupKeys]
  | cons y ys ih =>
      rw [dedupKeys]
      by_cases h : y ∈ ys
      · rw [if_pos h, ih, List.mem_cons]
        constructor
        · exact Or.inr
        · rintro (rfl | hx)
          · exact h
          · exact hx
      · rw [if_neg h, List.mem_cons, List.mem_cons, ih]

theorem mem_sunion (x : Nat) (a b : List Server) :
    x ∈ sunion a b ↔ x ∈ a ∨ x ∈ b := by
  rw [sunion, mem_sortKeys, mem_dedupKeys, List.mem_append]

/-- Every contract computed by `calcContract` satisfies role
containment, by construction of its `replicas` field. -/
theorem calcContract_roles (cfg : Config) (c : Contract)
    (l : List (Server × AckState)) (k : Key) :
    contract_roles_ok (calcContract cfg c l k) := by
  refine ⟨?_, ?_, ?_⟩
  · intro x hx
    show x ∈ sunion (sunion (sunion cfg.replicas
      (nextVoters cfg c fun s => ackAtKey (ackOf l s) k).1)
      ((nextVoters cfg c fun s => ackAtKey (ackOf l s) k).2.getD []))
      (primaryServers (nextPrimary cfg c l k))
    rw [mem_sunion]
    left
    rw [mem_sunion]
    left
    rw [mem_sunion]
    right
    exact hx
  · intro tv htv x hx
    show x ∈ sunion (sunion (sunion cfg.replicas
      (nextVoters cfg c fun s => ackAtKey (ackOf l s) k).1)
      ((nextVoters cfg c fun s => ackAtKey (ackOf l s) k).2.getD []))
      (primaryServers (nextPrimary cfg c l k))
    rw [mem_sunion]
    left
    rw [mem_sunion]
    right
    rw [show (nextVoters cfg c fun s => ackAtKey (ackOf l s) k).2 = some tv
      from htv]
    exact hx
  · intro p hp
    have hp' : nextPrimary cfg c l k = some p := hp
    constructor
    · show p.server ∈ sunion _ (primaryServers (nextPrimary cfg c l k))
      rw [mem_sunion]
      right
      rw [hp']
      obtain ⟨ps, ho⟩ := p
      cases ho <;> simp [primaryServers]
    · intro q hq
      show q ∈ sunion _ (primaryServers (nextPrimary cfg c l k))
      rw [mem_sunion]
      right
      rw [hp']
      obtain ⟨ps, ho⟩ := p
      cases ho with
      | none => cases hq
      | some q0 =>
          cases hq
          simp [primaryServers]

/-- C7 — Role containment: every contract emitted by a coordinator run
(an entry of the diff's `add` set) satisfies `voters ⊆ replicas`,
`temp_voters ⊆ replicas` when present, `primary.server ∈ replicas` when
present, and `primary.hand_over ∈ replicas` when present. -/
theorem role_containment (cfg : Config) (st : TableState) (acks : Acks) :
    ∀ a ∈ (calcDiff cfg st acks).adds, contract_roles_ok a.2.2 := by
  intro a ha
  obtain ⟨-, e0, -, hpc⟩ :=
    calcDiffAux_adds_shape cfg acks st.contracts st.next_id a ha
  have hshape := piecesFor_shape cfg (acksFor acks e0.1) e0.2.1 e0.2.2 a.2 hpc
  rw [hshape]
  exact calcContract_roles cfg e0.2.2 _ _

/-- Witness for C5: the idempotence theorem applied to the concrete
failover run. -/
theorem coordinator_idempotent_witness :
    WFConfig failoverCfg ∧ WFState failoverState ∧
      WFAcks failoverState (failoverAcks true true) ∧
      ((calcDiff failoverCfg
          (coordinate failoverCfg failoverState (failoverAcks true true)).1
          (coordinate failoverCfg failoverState
            (failoverAcks true true)).2).removes = [] ∧
        (calcDiff failoverCfg
          (coordinate failoverCfg failoverState (failoverAcks true true)).1
          (coordinate failoverCfg failoverState
            (failoverAcks true true)).2).adds = []) :=
  ⟨by unfold WFConfig; decide, by unfold WFState; decide,
    by unfold WFAcks; decide,
    coordinator_idempotent failoverCfg failoverState (failoverAcks true true)
      (by unfold WFConfig; decide) (by unfold WFState; decide)
      (by unfold WFAcks; decide)⟩

/-- Witness for C6: the id-stability theorem applied to the concrete
failover run, at the contract that the run replaces. -/
theorem contract_id_stability_witness :
    WFState failoverState ∧
      ((10, fullR, failoverContract) ∈
          (coordinate failoverCfg failoverState
            (failoverAcks true true)).1.contracts ↔
        piecesFor failoverCfg (acksFor (failoverAcks true true) 10) fullR
          failoverContract = [(fullR, failoverContract)]) :=
  ⟨by unfold WFState; decide,
    (contract_id_stability failoverCfg failoverState (failoverAcks true true)
        (by unfold WFState; decide)).1 (10, fullR, failoverContract)
      (by decide)⟩

/-- Witness for C7: the role-containment theorem applied to the contract
emitted by the concrete failover run. -/
theorem role_containment_witness : contract_roles_ok failoverResult :=
  role_containment failoverCfg failoverState (failoverAcks true true)
    (11, fullR, failoverResult) (by decide)

/-! Properties of the canonical id lists used by the closure. -/

theorem insertKey_perm (k : Nat) :
    ∀ l : List Nat, List.Perm (insertKey k l) (k :: l) := by
  intro l
  induction l with
  | nil => rfl
  | cons y ys ih =>
      rw [insertKey]
      by_cases h : k ≤ y
      · rw [if_pos h]
      · rw [if_neg h]
        exact (List.Perm.cons y ih).trans (List.Perm.swap k y ys)

theorem sortKeys_perm : ∀ l : List Nat, List.Perm (sortKeys l) l := by
  intro l
  induction l with
  | nil => rfl
  | cons y ys ih =>
      rw [sortKeys]
      exact (insertKey_perm y (sortKeys ys)).trans (List.Perm.cons y ih)

theorem sorted_insertKey (k : Nat) :
    ∀ l : List Nat, l.Sorted (· ≤ ·) → (insertKey k l).Sorted (· ≤ ·) := by
  intro l
  induction l with
  | nil => intro _; simp [insertKey]
  | cons y ys ih =>
      intro hs
      obtain ⟨hy, hys⟩ := List.sorted_cons.mp hs
      rw [insertKey]
      by_cases h : k ≤ y
      · rw [if_pos h]
        refine List.sorted_cons.mpr ⟨?_, hs⟩
        intro b hb
        rcases List.mem_cons.mp hb with rfl | hb
        · exact h
        · exact Nat.le_trans h (hy b hb)
      · rw [if_neg h]
        refine List.sorted_cons.mpr ⟨?_, ih hys⟩
        intro b hb
        rcases (mem_insertKey k b ys).mp hb with rfl | hb
        · exact Nat.le_of_not_le h
        · exact hy b hb

theorem sortKeys_sorted : ∀ l : List Nat, (sortKeys l).Sorted (· ≤ ·) := by
  intro l
  induction l with
  | nil => simp [sortKeys]
  | cons y ys ih => exact sorted_insertKey y (sortKeys ys) ih

theorem dedupKeys_nodup : ∀ l : List Nat, (dedupKeys l).Nodup := by
  intro l
  induction l with
  | nil => simp [dedupKeys]
  | cons y ys ih =>
      rw [dedupKeys]
      by_cases h : y ∈ ys
      · rw [if_pos h]
        exact ih
      · rw [if_neg h]
        exact List.nodup_cons.mpr ⟨fun hc => h ((mem_dedupKeys y ys).mp hc), ih⟩

theorem canonKeys_nodup (l : List Nat) : (canonKeys l).Nodup :=
  ((sortKeys_perm (dedupKeys l)).nodup_iff).mpr (dedupKeys_nodup l)

theorem canonKeys_sorted (l : List Nat) : (canonKeys l).Sorted (· ≤ ·) :=
  sortKeys_sorted (dedupKeys l)

theorem mem_canonKeys (x : Nat) (l : List Nat) :
    x ∈ canonKeys l ↔ x ∈ l := by
  rw [canonKeys, mem_sortKeys, mem_dedupKeys]

/-! The transitive-closure iteration: monotonicity, invariance and the
fixed point reached within the fuel bound. -/

theorem subset_expandOnce (h : BranchHistory) (acc : List BranchId) :
    acc ⊆ expandOnce h acc := by
  intro x hx
  rw [expandOnce, mem_canonKeys]
  exact List.mem_append.mpr (Or.inl hx)

theorem parents_subset_expandOnce (h : BranchHistory) (acc : List BranchId)
    (b : BranchId) (hb : b ∈ acc) :
    branchParents h b ⊆ expandOnce h acc := by
  intro x hx
  rw [expandOnce, mem_canonKeys]
  refine List.mem_append.mpr (Or.inr ?_)
  rw [List.mem_flatten]
  exact ⟨branchParents h b, List.mem_map.mpr ⟨b, hb, rfl⟩, hx⟩

theorem mem_expandOnce (h : BranchHistory) (acc : List BranchId)
    (x : BranchId) :
    x ∈ expandOnce h acc ↔
      x ∈ acc ∨ ∃ b ∈ acc, x ∈ branchParents h b := by
  rw [expandOnce, mem_canonKeys, List.mem_append, List.mem_flatten]
  constructor
  · rintro (hx | ⟨l, hl, hx⟩)
    · exact Or.inl hx
    · obtain ⟨b, hb, rfl⟩ := List.mem_map.mp hl
      exact Or.inr ⟨b, hb, hx⟩
  · rintro (hx | ⟨b, hb, hx⟩)
    · exact Or.inl hx
    · exact Or.inr ⟨branchParents h b, List.mem_map.mpr ⟨b, hb, rfl⟩, hx⟩

theorem reachN_supset (h : BranchHistory) :
    ∀ (n : Nat) (acc : List BranchId), acc ⊆ reachN h n acc := by
  intro n
  induction n with
  | zero => intro acc x hx; exact hx
  | succ n ih =>
      intro acc x hx
      rw [reachN]
      exact ih (expandOnce h acc) (subset_expandOnce h acc hx)

theorem reachN_invariant (h : BranchHistory) (T : List BranchId)
    (hT : ∀ b ∈ T, branchParents h b ⊆ T) :
    ∀ (n : Nat) (acc : List BranchId), acc ⊆ T → reachN h n acc ⊆ T := by
  intro n
  induction n with
  | zero => intro acc hacc; exact hacc
  | succ n ih =>
      intro acc hacc
      rw [reachN]
      apply ih
      intro x hx
      rcases (mem_expandOnce h acc x).mp hx with hx | ⟨b, hb, hx⟩
      · exact hacc hx
      · exact hT b (hacc hb) hx

theorem reachN_of_fix (h : BranchHistory) (acc : List BranchId)
    (hfix : expandOnce h acc = acc) :
    ∀ n : Nat, reachN h n acc = acc := by
  intro n
  induction n with
  | zero => rfl
  | succ n ih => rw [reachN, hfix, ih]

/-- Within the fuel bound the iteration reaches a fixed point: each
non-fixed step strictly grows a duplicate-free subset of `uni`. -/
theorem reachN_isFix (h : BranchHistory) (uni : List BranchId)
    (hp : ∀ b x, x ∈ branchParents h b → x ∈ uni) :
    ∀ (n : Nat) (acc : List BranchId), acc.Nodup → acc.Sorted (· ≤ ·) →
      acc ⊆ uni → uni.length < n + acc.length →
      expandOnce h (reachN h n acc) = reachN h n acc := by
  intro n
  induction n with
  | zero =>
      intro acc hnd _ hsub hlen
      exact absurd ((List.subperm_of_subset hnd hsub).length_le)
        (by omega)
  | succ n ih =>
      intro acc hnd hsort hsub hlen
      by_cases hfix : expandOnce h acc = acc
      · rw [reachN, hfix, reachN_of_fix h acc hfix n]
        exact hfix
      · rw [reachN]
        have hnd' : (expandOnce h acc).Nodup := canonKeys_nodup _
        have hsort' : (expandOnce h acc).Sorted (· ≤ ·) := canonKeys_sorted _
        have hsub' : expandOnce h acc ⊆ uni := by
          intro x hx
          rcases (mem_expandOnce h acc x).mp hx with hx | ⟨b, -, hx⟩
          · exact hsub hx
          · exact hp b x hx
        have hlt : acc.length < (expandOnce h acc).length := by
          rcases Nat.lt_or_ge acc.length (expandOnce h acc).length with h' | h'
          · exact h'
          · exfalso
            apply hfix
            exact (List.eq_of_perm_of_sorted
              ((List.subperm_of_subset hnd
                (subset_expandOnce h acc)).perm_of_length_le h')
              hsort hsort').symm
        exact ih (expandOnce h acc) hnd' hsort' hsub' (by omega)

theorem branchParents_subset_allParents (h : BranchHistory) (b : BranchId) :
    ∀ x ∈ branchParents h b, x ∈ allParents h := by
  intro x hx
  rw [branchParents] at hx
  rw [allParents, List.mem_flatten]
  induction h with
  | nil => cases hx
  | cons e rest ih =>
      rw [lookupB] at hx
      by_cases he : e.1 = b
      · rw [if_pos he] at hx
        exact ⟨nodeParents e.2, List.mem_map.mpr ⟨e, List.mem_cons_self _ _,
          rfl⟩, hx⟩
      · rw [if_neg he] at hx
        obtain ⟨l, hl, hxl⟩ := ih hx
        obtain ⟨e', he', rfl⟩ := List.mem_map.mp hl
        exact ⟨nodeParents e'.2, List.mem_map.mpr
          ⟨e', List.mem_cons_of_mem _ he', rfl⟩, hxl⟩

/-- `reachable` is a fixed point of the expansion. -/
theorem reachable_isFix (h : BranchHistory) (roots : List BranchId) :
    expandOnce h (reachable h roots) = reachable h roots := by
  apply reachN_isFix h (canonKeys (roots ++ allParents h))
  · intro b x hx
    rw [mem_canonKeys]
    exact List.mem_append.mpr (Or.inr (branchParents_subset_allParents h b x hx))
  · exact canonKeys_nodup roots
  · exact canonKeys_sorted roots
  · intro x hx
    rw [mem_canonKeys] at hx ⊢
    exact List.mem_append.mpr (Or.inl hx)
  · omega

/-- The fixed point is closed under parent links. -/
theorem reachable_closed (h : BranchHistory) (roots : List BranchId)
    (b : BranchId) (hb : b ∈ reachable h roots) :
    branchParents h b ⊆ reachable h roots := by
  intro x hx
  rw [← reachable_isFix h roots]
  exact parents_subset_expandOnce h (reachable h roots) b hb hx

/-- The roots are reachable. -/
theorem roots_subset_reachable (h : BranchHistory) (roots : List BranchId) :
    ∀ x ∈ roots, x ∈ reachable h roots := by
  intro x hx
  apply reachN_supset
  rw [mem_canonKeys]
  exact hx

/-! Lookup lemmas: how `lookupB` interacts with append, erasure and
filtering, and the bookkeeping of the fragments across a run. -/

theorem lookupB_append_some (b : BranchId) (n : BranchNode)
    (y : BranchHistory) :
    ∀ x : BranchHistory, lookupB x b = some n → lookupB (x ++ y) b = some n := by
  intro x
  induction x with
  | nil => intro hx; cases hx
  | cons e rest ih =>
      intro hx
      rw [lookupB] at hx
      rw [List.cons_append, lookupB]
      by_cases he : e.1 = b
      · rw [if_pos he] at hx
        rw [if_pos he]
        exact hx
      · rw [if_neg he] at hx
        rw [if_neg he]
        exact ih hx

theorem lookupB_append_none (b : BranchId) (y : BranchHistory) :
    ∀ x : BranchHistory, lookupB x b = none →
      lookupB (x ++ y) b = lookupB y b := by
  intro x
  induction x with
  | nil => intro _; rfl
  | cons e rest ih =>
      intro hx
      rw [lookupB] at hx
      rw [List.cons_append, lookupB]
      by_cases he : e.1 = b
      · rw [if_pos he] at hx
        cases hx
      · rw [if_neg he] at hx
        rw [if_neg he]
        exact ih hx

theorem lookupB_eq_none_iff (b : BranchId) :
    ∀ h : BranchHistory, lookupB h b = none ↔ b ∉ h.map Prod.fst := by
  intro h
  induction h with
  | nil => simp [lookupB]
  | cons e rest ih =>
      rw [lookupB, List.map_cons]
      by_cases he : e.1 = b
      · rw [if_pos he]
        simp [he]
      · rw [if_neg he, ih, List.mem_cons]
        constructor
        · intro hn hc
          rcases hc with hc | hc
          · exact he hc.symm
          · exact hn hc
        · intro hn hc
          exact hn (Or.inr hc)

theorem keepBranches_mem (rem : List BranchId) :
    ∀ (h : BranchHistory) (e : BranchId × BranchNode),
      e ∈ keepBranches h rem ↔ e ∈ h ∧ e.1 ∉ rem := by
  intro h
  induction h with
  | nil => intro e; rw [keepBranches]; simp
  | cons hd rest ih =>
      intro e
      rw [keepBranches]
      by_cases hh : hd.1 ∈ rem
      · rw [if_pos hh, ih]
        constructor
        · rintro ⟨h1, h2⟩
          exact ⟨List.mem_cons_of_mem _ h1, h2⟩
        · rintro ⟨h1, h2⟩
          rcases List.mem_cons.mp h1 with h | h
          · subst h
            exact absurd hh h2
          · exact ⟨h, h2⟩
      · rw [if_neg hh]
        constructor
        · intro hmem
          rcases List.mem_cons.mp hmem with h | h
          · subst h
            exact ⟨List.mem_cons_self _ _, hh⟩
          · obtain ⟨h1, h2⟩ := (ih e).mp h
            exact ⟨List.mem_cons_of_mem _ h1, h2⟩
        · rintro ⟨h1, h2⟩
          rcases List.mem_cons.mp h1 with h | h
          · subst h
            exact List.mem_cons_self _ _
          · exact List.mem_cons_of_mem _ ((ih e).mpr ⟨h, h2⟩)

theorem lookupB_keepBranches (rem : List BranchId) (b : BranchId)
    (hb : b ∉ rem) :
    ∀ h : BranchHistory, lookupB (keepBranches h rem) b = lookupB h b := by
  intro h
  induction h with
  | nil => rfl
  | cons e rest ih =>
      rw [keepBranches, lookupB]
      by_cases he : e.1 ∈ rem
      · rw [if_pos he]
        have hne : e.1 ≠ b := fun hc => hb (hc ▸ he)
        rw [if_neg hne]
        exact ih
      · rw [if_neg he, lookupB]
        by_cases he2 : e.1 = b
        · rw [if_pos he2, if_pos he2]
        · rw [if_neg he2, if_neg he2]
          exact ih

theorem lookupB_filter (pred : BranchId × BranchNode → Bool)
    (q : BranchId → Bool) (hpq : ∀ e, pred e = q e.1) (b : BranchId) :
    ∀ h : BranchHistory, lookupB (h.filter pred) b =
      if q b = true then lookupB h b else none := by
  intro h
  induction h with
  | nil => simp [lookupB]
  | cons e rest ih =>
      rw [List.filter_cons]
      by_cases hpe : pred e = true
      · rw [if_pos hpe, lookupB, lookupB]
        by_cases heb : e.1 = b
        · rw [if_pos heb, if_pos heb]
          have hq : q b = true := by
            rw [← heb, ← hpq]
            exact hpe
          rw [if_pos hq]
        · rw [if_neg heb, if_neg heb]
          exact ih
      · rw [if_neg hpe, ih, lookupB]
        by_cases hqb : q b = true
        · rw [if_pos hqb, if_pos hqb]
          have heb : e.1 ≠ b := by
            intro hc
            apply hpe
            rw [hpq, hc]
            exact hqb
          rw [if_neg heb]
        · rw [if_neg hqb, if_neg hqb]

theorem cleanFrags_subset (rem : List ContractId) :
    ∀ (frags : FragMap) (a : (Server × ContractId) × BranchHistory),
      a ∈ cleanFrags frags rem → a ∈ frags := by
  intro frags
  induction frags with
  | nil => intro a ha; cases ha
  | cons e rest ih =>
      intro a ha
      rw [cleanFrags] at ha
      by_cases he : e.1.2 ∈ rem
      · rw [if_pos he] at ha
        exact List.mem_cons_of_mem _ (ih a ha)
      · rw [if_neg he] at ha
        rcases List.mem_cons.mp ha with h | h
        · subst h
          exact List.mem_cons_self _ _
        · exact List.mem_cons_of_mem _ (ih a h)

theorem fragsAll_cleanFrags_subset (rem : List ContractId) (frags : FragMap)
    (x : BranchId × BranchNode) (hx : x ∈ fragsAll (cleanFrags frags rem)) :
    x ∈ fragsAll frags := by
  rw [fragsAll, List.mem_flatten] at hx ⊢
  obtain ⟨l, hl, hxl⟩ := hx
  obtain ⟨a, ha, rfl⟩ := List.mem_map.mp hl
  exact ⟨a.2, List.mem_map.mpr ⟨a, cleanFrags_subset rem frags a ha, rfl⟩, hxl⟩

theorem keepContracts_nil :
    ∀ l : List (ContractId × KeyRange × Contract), keepContracts l [] = l := by
  intro l
  induction l with
  | nil => rfl
  | cons e rest ih =>
      rw [keepContracts, if_neg (List.not_mem_nil e.1), ih]

/-! After a run, the store consisting of the kept branches plus the
added ones, extended by the surviving fragments, agrees with the old
extended store on every reachable branch; hence the reachable set itself
is unchanged, and the second run's branch diff is empty. -/

theorem lookupB_after_run (bh frag frag2 : BranchHistory)
    (reach : List BranchId) (hsub : ∀ x ∈ frag2, x ∈ frag)
    (b : BranchId) (hb : b ∈ reach) :
    lookupB ((keepBranches bh (branchRemovals bh reach) ++
        branchAdditions bh frag reach) ++ frag2) b =
      lookupB (bh ++ frag) b := by
  by_cases hmem : b ∈ bh.map Prod.fst
  · have hbrem : b ∉ branchRemovals bh reach := by
      intro hr
      rw [branchRemovals] at hr
      exact (of_decide_eq_true (List.mem_filter.mp hr).2) hb
    cases hlook : lookupB bh b with
    | none =>
        exact absurd hmem ((lookupB_eq_none_iff b bh).mp hlook)
    | some n =>
        have h2 : lookupB (keepBranches bh (branchRemovals bh reach)) b =
            some n := by
          rw [lookupB_keepBranches _ b hbrem]
          exact hlook
        rw [lookupB_append_some b n frag2 _
            (lookupB_append_some b n (branchAdditions bh frag reach) _ h2),
          lookupB_append_some b n frag bh hlook]
  · have hlookbh : lookupB bh b = none := (lookupB_eq_none_iff b bh).mpr hmem
    have hkeep : lookupB (keepBranches bh (branchRemovals bh reach)) b =
        none := by
      rw [lookupB_keepBranches _ b]
      · exact hlookbh
      · intro hr
        rw [branchRemovals] at hr
        exact hmem (List.mem_filter.mp hr).1
    have hR : lookupB (bh ++ frag) b = lookupB frag b :=
      lookupB_append_none b frag bh hlookbh
    have haddb : lookupB (branchAdditions bh frag reach) b =
        if (decide (b ∈ reach ∧ b ∉ bh.map Prod.fst)) = true
        then lookupB frag b else none := by
      rw [branchAdditions]
      exact lookupB_filter _
        (fun i => decide (i ∈ reach ∧ i ∉ bh.map Prod.fst))
        (fun e => rfl) b frag
    have hcond : decide (b ∈ reach ∧ b ∉ bh.map Prod.fst) = true :=
      decide_eq_true ⟨hb, hmem⟩
    have h1 : lookupB (keepBranches bh (branchRemovals bh reach) ++
        branchAdditions bh frag reach) b =
        lookupB (branchAdditions bh frag reach) b :=
      lookupB_append_none b _ _ hkeep
    cases hlookf : lookupB frag b with
    | some n =>
        have haddb' : lookupB (keepBranches bh (branchRemovals bh reach) ++
            branchAdditions bh frag reach) b = some n := by
          rw [h1, haddb, if_pos hcond, hlookf]
        rw [lookupB_append_some b n frag2 _ haddb', hR, hlookf]
    | none =>
        have haddb' : lookupB (keepBranches bh (branchRemovals bh reach) ++
            branchAdditions bh frag reach) b = none := by
          rw [h1, haddb, if_pos hcond, hlookf]
        have hfr2 : lookupB frag2 b = none := by
          rw [lookupB_eq_none_iff]
          intro hc
          obtain ⟨e, he, heq⟩ := List.mem_map.mp hc
          apply (lookupB_eq_none_iff b frag).mp hlookf
          exact List.mem_map.mpr ⟨e, hsub e he, heq⟩
        rw [lookupB_append_none b frag2 _ haddb', hfr2, hR, hlookf]

theorem reachable_after_run (bh frag frag2 : BranchHistory)
    (roots : List BranchId) (hsub : ∀ x ∈ frag2, x ∈ frag) (b : BranchId) :
    b ∈ reachable ((keepBranches bh
        (branchRemovals bh (reachable (bh ++ frag) roots)) ++
        branchAdditions bh frag (reachable (bh ++ frag) roots)) ++ frag2)
        roots ↔
      b ∈ reachable (bh ++ frag) roots := by
  have hagree : ∀ x ∈ reachable (bh ++ frag) roots,
      branchParents ((keepBranches bh
          (branchRemovals bh (reachable (bh ++ frag) roots)) ++
          branchAdditions bh frag (reachable (bh ++ frag) roots)) ++ frag2) x =
        branchParents (bh ++ frag) x := by
    intro x hx
    rw [branchParents, branchParents,
      lookupB_after_run bh frag frag2 (reachable (bh ++ frag) roots) hsub x hx]
  have h21 : reachable ((keepBranches bh
      (branchRemovals bh (reachable (bh ++ frag) roots)) ++
      branchAdditions bh frag (reachable (bh ++ frag) roots)) ++ frag2)
      roots ⊆ reachable (bh ++ frag) roots := by
    rw [reachable]
    apply reachN_invariant
    · intro x hx y hy
      rw [hagree x hx] at hy
      exact reachable_closed (bh ++ frag) roots x hx hy
    · intro x hx
      rw [reachable]
      exact reachN_supset _ _ _ hx
  have h12 : reachable (bh ++ frag) roots ⊆
      reachable ((keepBranches bh
        (branchRemovals bh (reachable (bh ++ frag) roots)) ++
        branchAdditions bh frag (reachable (bh ++ frag) roots)) ++ frag2)
        roots := by
    rw [reachable]
    apply reachN_invariant
    · intro x hx y hy
      rw [← hagree x (h21 hx)] at hy
      exact reachable_closed _ roots x hx hy
    · intro x hx
      rw [reachable]
      exact reachN_supset _ _ _ hx
  exact ⟨fun hx => h21 hx, fun hx => h12 hx⟩

theorem branchRemovals_after_run (bh frag frag2 : BranchHistory)
    (roots : List BranchId) (hsub : ∀ x ∈ frag2, x ∈ frag) :
    branchRemovals
      (keepBranches bh (branchRemovals bh (reachable (bh ++ frag) roots)) ++
        branchAdditions bh frag (reachable (bh ++ frag) roots))
      (reachable ((keepBranches bh
          (branchRemovals bh (reachable (bh ++ frag) roots)) ++
          branchAdditions bh frag (reachable (bh ++ frag) roots)) ++ frag2)
        roots) = [] := by
  rw [branchRemovals, List.filter_eq_nil_iff]
  intro i hi
  rw [decide_eq_true_eq]
  intro hnot
  apply hnot
  rw [reachable_after_run bh frag frag2 roots hsub i]
  obtain ⟨e, he, heq⟩ := List.mem_map.mp hi
  rcases List.mem_append.mp he with hk | ha
  · obtain ⟨hbh, hrem⟩ := (keepBranches_mem _ _ _).mp hk
    by_contra hnr
    apply hrem
    rw [branchRemovals]
    refine List.mem_filter.mpr ⟨List.mem_map.mpr ⟨e, hbh, rfl⟩, ?_⟩
    refine decide_eq_true ?_
    rw [heq]
    exact hnr
  · rw [branchAdditions] at ha
    have h2 := (of_decide_eq_true (List.mem_filter.mp ha).2).1
    rw [heq] at h2
    exact h2

theorem branchAdditions_after_run (bh frag frag2 : BranchHistory)
    (roots : List BranchId) (hsub : ∀ x ∈ frag2, x ∈ frag) :
    branchAdditions
      (keepBranches bh (branchRemovals bh (reachable (bh ++ frag) roots)) ++
        branchAdditions bh frag (reachable (bh ++ frag) roots))
      frag2
      (reachable ((keepBranches bh
          (branchRemovals bh (reachable (bh ++ frag) roots)) ++
          branchAdditions bh frag (reachable (bh ++ frag) roots)) ++ frag2)
        roots) = [] := by
  rw [branchAdditions, List.filter_eq_nil_iff]
  intro e he
  rw [decide_eq_true_eq]
  rintro ⟨hin2, hnin⟩
  have hin1 : e.1 ∈ reachable (bh ++ frag) roots :=
    (reachable_after_run bh frag frag2 roots hsub e.1).mp hin2
  apply hnin
  by_cases hbh : e.1 ∈ bh.map Prod.fst
  · obtain ⟨e', he', heq⟩ := List.mem_map.mp hbh
    refine List.mem_map.mpr ⟨e', List.mem_append.mpr (Or.inl
      ((keepBranches_mem _ _ _).mpr ⟨he', ?_⟩)), heq⟩
    intro hr
    rw [branchRemovals] at hr
    apply of_decide_eq_true (List.mem_filter.mp hr).2
    rw [heq]
    exact hin1
  · refine List.mem_map.mpr ⟨e, List.mem_append.mpr (Or.inr ?_), rfl⟩
    rw [branchAdditions]
    exact List.mem_filter.mpr ⟨hsub e he, decide_eq_true ⟨hin1, hbh⟩⟩

/-- C5 — Idempotence over the full diff (contract removals/additions and
branch removals/additions): a `coordinate_full` run applies its own
contract and branch diffs and drops the acks and fragments of removed
contracts; running the coordinator again on the result with the same
acks produces an empty diff in all four components, for every
well-formed input.  Determinism is intrinsic: the transition is a pure
function of its inputs, so identical inputs give identical outputs. -/
theorem coordinator_idempotent_full (cfg : Config) (st : TableState)
    (bh : BranchHistory) (acks : Acks) (frags : FragMap)
    (hcfg : WFConfig cfg) (hst : WFState st) (hacks : WFAcks st acks) :
    (calcDiff cfg (coordinate_full cfg st bh acks frags).1.1
        (coordinate_full cfg st bh acks frags).2.1).removes = [] ∧
    (calcDiff cfg (coordinate_full cfg st bh acks frags).1.1
        (coordinate_full cfg st bh acks frags).2.1).adds = [] ∧
    calculate_branch_history (coordinate_full cfg st bh acks frags).1.1
      (coordinate_full cfg st bh acks frags).1.2
      (coordinate_full cfg st bh acks frags).2.2
      (calcDiff cfg (coordinate_full cfg st bh acks frags).1.1
        (coordinate_full cfg st bh acks frags).2.1).removes
      (calcDiff cfg (coordinate_full cfg st bh acks frags).1.1
        (coordinate_full cfg st bh acks frags).2.1).adds = ([], []) := by
  obtain ⟨hrem, hadd⟩ := coordinator_idempotent cfg st acks hcfg hst hacks
  have hrem' : (calcDiff cfg (coordinate_full cfg st bh acks frags).1.1
      (coordinate_full cfg st bh acks frags).2.1).removes = [] := hrem
  have hadd' : (calcDiff cfg (coordinate_full cfg st bh acks frags).1.1
      (coordinate_full cfg st bh acks frags).2.1).adds = [] := hadd
  refine ⟨hrem', hadd', ?_⟩
  rw [hrem', hadd', calculate_branch_history]
  have hC : (coordinate_full cfg st bh acks frags).1.1.contracts =
      keepContracts st.contracts (calcDiff cfg st acks).removes ++
        (calcDiff cfg st acks).adds := rfl
  have hroots : survivingRoots (coordinate_full cfg st bh acks frags).1.1 [] []
      = survivingRoots st (calcDiff cfg st acks).removes
          (calcDiff cfg st acks).adds := by
    rw [survivingRoots, keepContracts_nil, List.append_nil, hC, survivingRoots]
  rw [hroots]
  have hA : (coordinate_full cfg st bh acks frags).1.2 =
      keepBranches bh (branchRemovals bh (reachable (bh ++ fragsAll frags)
          (survivingRoots st (calcDiff cfg st acks).removes
            (calcDiff cfg st acks).adds))) ++
        branchAdditions bh (fragsAll frags)
          (reachable (bh ++ fragsAll frags)
            (survivingRoots st (calcDiff cfg st acks).removes
              (calcDiff cfg st acks).adds)) := rfl
  have hB : (coordinate_full cfg st bh acks frags).2.2 =
      cleanFrags frags (calcDiff cfg st acks).removes := rfl
  rw [hA, hB, Prod.mk.injEq]
  constructor
  · exact branchRemovals_after_run bh (fragsAll frags) _ _
      (fragsAll_cleanFrags_subset (calcDiff cfg st acks).removes frags)
  · exact branchAdditions_after_run bh (fragsAll frags) _ _
      (fragsAll_cleanFrags_subset (calcDiff cfg st acks).removes frags)

/-- Witness for C5: the full idempotence theorem applied to the concrete
failover run, with br1 recorded in the branch store. -/
theorem coordinator_idempotent_full_witness :
    WFConfig failoverCfg ∧ WFState failoverState ∧
      WFAcks failoverState (failoverAcks true true) ∧
      ((calcDiff failoverCfg
          (coordinate_full failoverCfg failoverState failoverBranches
            (failoverAcks true true) []).1.1
          (coordinate_full failoverCfg failoverState failoverBranches
            (failoverAcks true true) []).2.1).removes = [] ∧
        (calcDiff failoverCfg
          (coordinate_full failoverCfg failoverState failoverBranches
            (failoverAcks true true) []).1.1
          (coordinate_full failoverCfg failoverState failoverBranches
            (failoverAcks true true) []).2.1).adds = [] ∧
        calculate_branch_history
          (coordinate_full failoverCfg failoverState failoverBranches
            (failoverAcks true true) []).1.1
          (coordinate_full failoverCfg failoverState failoverBranches
            (failoverAcks true true) []).1.2
          (coordinate_full failoverCfg failoverState failoverBranches
            (failoverAcks true true) []).2.2
          (calcDiff failoverCfg
            (coordinate_full failoverCfg failoverState failoverBranches
              (failoverAcks true true) []).1.1
            (coordinate_full failoverCfg failoverState failoverBranches
              (failoverAcks true true) []).2.1).removes
          (calcDiff failoverCfg
            (coordinate_full failoverCfg failoverState failoverBranches
              (failoverAcks true true) []).1.1
            (coordinate_full failoverCfg failoverState failoverBranches
              (failoverAcks true true) []).2.1).adds = ([], [])) :=
  ⟨by unfold WFConfig; decide, by unfold WFState; decide,
    by unfold WFAcks; decide,
    coordinator_idempotent_full failoverCfg failoverState failoverBranches
      (failoverAcks true true) [] (by unfold WFConfig; decide)
      (by unfold WFState; decide) (by unfold WFAcks; decide)⟩

end Coordinator

end RethinkDB
